import Mathlib

/-!
Verification development for the Vibe DSL interpreter (main.go).

The Go source is shallowly embedded: the lexer works on `List Char`
(the source is ASCII; Go's byte-level scanning with the 0 sentinel is
modelled by treating the character `'\x00'` as end-of-input), the parser
is embedded with an explicit fuel parameter bounding recursion depth
(the Go parser can loop forever on some malformed inputs, e.g. a list
whose element position holds `=`, so a total embedding needs fuel), and
the interpreter is embedded as a function from a program and an oracle
`World` (describing the outcomes of external shell / assistant /
filesystem calls) to a final environment, a trace of side-effect events,
and an optional error string (Go `error` values are modelled by their
message strings).

Go `float64` number values are modelled by the exact decimal type `Dec`
(mantissa times a power of ten).  Every numeric value a `.vibe` script
can denote is a decimal literal, and all operations the interpreter
performs on numbers (ordering comparisons, adding or subtracting 1,
printing with `%g`) are exact on such values, so the model agrees with
the Go float semantics on the whole range exercised here; `%g`'s switch
to exponent notation for very large or small magnitudes and IEEE
rounding of long literals are outside the modelled range and are noted
where relevant.
-/

namespace Vibe

/-! ## Exact decimal numbers (model of the Go `float64` values)

`Dec.mk m e` denotes the rational number `m / 10 ^ e`.  The
representation is not normalised; `Dec` equality used in AST equality
statements is structural, while all interpreter observations (ordering,
printing) go through the arithmetic functions below, which are
insensitive to trailing-zero representation differences. -/

structure Dec where
  m : Int
  e : Nat
  deriving DecidableEq, Repr

def Dec.ofNat (n : Nat) : Dec := ⟨(n : Int), 0⟩

instance : OfNat Dec n := ⟨Dec.ofNat n⟩

def Dec.blt (a b : Dec) : Bool := a.m * (10 : Int) ^ b.e < b.m * (10 : Int) ^ a.e

def Dec.ble (a b : Dec) : Bool := a.m * (10 : Int) ^ b.e ≤ b.m * (10 : Int) ^ a.e

/-- Adding 1, as the Go interpreter's `num + 1` on a float64. -/
def Dec.add1 (a : Dec) : Dec := ⟨a.m + (10 : Int) ^ a.e, a.e⟩

/-- Subtracting 1, as the Go interpreter's `num - 1` on a float64. -/
def Dec.sub1 (a : Dec) : Dec := ⟨a.m - (10 : Int) ^ a.e, a.e⟩

/-- Strip factors of ten shared by mantissa and exponent, so that
`12.50` prints as `12.5` and `5.0` prints as `5`, matching `%g`. -/
def Dec.normAux : Nat → Int → Nat → Int × Nat
  | 0, m, e => (m, e)
  | fuel + 1, m, e =>
    if e = 0 then (m, e)
    else if m % 10 = 0 then Dec.normAux fuel (m / 10) (e - 1)
    else (m, e)

def Dec.norm (a : Dec) : Dec :=
  let p := Dec.normAux a.e a.m a.e
  ⟨p.1, p.2⟩

def digitChar (n : Nat) : Char := Char.ofNat (48 + n)

/-- Decimal digits of a natural number, most significant first.  The
fuel argument only bounds the digit count; `n + 1` always suffices. -/
def natDigitsAux : Nat → Nat → List Char
  | 0, _ => []
  | fuel + 1, n =>
    if n < 10 then [digitChar n]
    else natDigitsAux fuel (n / 10) ++ [digitChar (n % 10)]

def natDigits (n : Nat) : List Char := natDigitsAux (n + 1) n

/-- Rendering of a `Dec` as Go's `fmt.Sprintf("%g", x)` renders the
corresponding float64, for values in the plain-decimal range of `%g`
(no exponent notation is modelled). -/
def gFormat (a : Dec) : String :=
  let b := a.norm
  let sign := if b.m < 0 then "-" else ""
  let digits := natDigits b.m.natAbs
  if b.e = 0 then sign ++ ⟨digits⟩
  else
    let digits := if digits.length ≤ b.e then
        List.replicate (b.e + 1 - digits.length) '0' ++ digits
      else digits
    sign ++ ⟨digits.take (digits.length - b.e)⟩ ++ "." ++ ⟨digits.drop (digits.length - b.e)⟩

/-! ## Lexer

Embedding of `Lexer` / `NextToken` from main.go.  The byte cursor with
one character of lookahead is modelled by the list of remaining
characters; Go's sentinel byte 0 corresponds to the empty list (and a
literal `'\x00'` character inside the input is also treated as
end-of-input, as in the Go code).  Line/column bookkeeping is dropped:
no consumer of tokens reads it. -/

inductive TokenType where
  | eof | identifier | str | number | boolean
  | assign | lbrace | rbrace | lbracket | rbracket | comma | dot
  | eq | neq | lt | gt | lte | gte
  | plus | minus | plusplus | minusminus
  | kwIf | kwElse | kwRepeat | kwAsk | kwBefore | kwAfter | kwShell
  | newline
  deriving DecidableEq, Repr

structure Token where
  type : TokenType
  literal : String
  deriving DecidableEq, Repr

def eofTok : Token := ⟨.eof, ""⟩

/-- Go `isLetter`: `unicode.IsLetter(rune(ch)) || ch == '_'`, restricted
to the ASCII range the scripts use. -/
def isLetter (c : Char) : Bool := c.isAlpha || c = '_'

def isDigit (c : Char) : Bool := c.isDigit

def isIdentChar (c : Char) : Bool := isLetter c || isDigit c || c = '-' || c = '_'

def isWs (c : Char) : Bool := c = ' ' || c = '\t' || c = '\r'

def lookupKeyword (s : String) : TokenType :=
  if s = "if" then .kwIf
  else if s = "else" then .kwElse
  else if s = "repeat" then .kwRepeat
  else if s = "ask" then .kwAsk
  else if s = "before" then .kwBefore
  else if s = "after" then .kwAfter
  else if s = "shell" then .kwShell
  else if s = "True" then .boolean
  else if s = "False" then .boolean
  else .identifier

def skipWhitespace (cs : List Char) : List Char := cs.dropWhile isWs

def notCommentEnd (c : Char) : Bool := !(c = '\n' || c = '\x00')

def skipComment (cs : List Char) : List Char :=
  match cs with
  | '#' :: _ => cs.dropWhile notCommentEnd
  | _ => cs

def strChr (c : Char) : Bool := !(c = '"' || c = '\x00')

/-- Go `readString`, starting just after the opening quote: raw bytes up
to the next quote, no escapes; the closing quote (or the terminating
character) is consumed. -/
def readString (cs : List Char) : String × List Char :=
  (⟨cs.takeWhile strChr⟩, (cs.dropWhile strChr).drop 1)

def readIdentifier (cs : List Char) : String × List Char :=
  (⟨cs.takeWhile isIdentChar⟩, cs.dropWhile isIdentChar)

/-- Go `readNumber`: digits, and one fractional digit group only when
the dot is immediately followed by a digit. -/
def readNumber (cs : List Char) : String × List Char :=
  let ip := cs.takeWhile isDigit
  let r1 := cs.dropWhile isDigit
  match r1 with
  | '.' :: c :: r2 =>
    if isDigit c then
      (⟨ip⟩ ++ "." ++ ⟨(c :: r2).takeWhile isDigit⟩, (c :: r2).dropWhile isDigit)
    else (⟨ip⟩, r1)
  | _ => (⟨ip⟩, r1)

/-- The dispatch of Go `NextToken` after the whitespace/comment skips.
Note the two fall-through cases that leave the zero-value token (type
`TOKEN_EOF`, empty literal) and do not advance: a bare `!` without `=`,
and any character that is neither a known punctuation nor a letter nor
a digit. -/
def nextTokenCore : List Char → Token × List Char
  | [] => (eofTok, [])
  | c :: r =>
    if c = '\n' then (⟨.newline, "\n"⟩, r)
    else if c = '=' then
      match r with
      | '=' :: r2 => (⟨.eq, "=="⟩, r2)
      | _ => (⟨.assign, "="⟩, r)
    else if c = '!' then
      match r with
      | '=' :: r2 => (⟨.neq, "!="⟩, r2)
      | _ => (eofTok, c :: r)
    else if c = '<' then
      match r with
      | '=' :: r2 => (⟨.lte, "<="⟩, r2)
      | _ => (⟨.lt, "<"⟩, r)
    else if c = '>' then
      match r with
      | '=' :: r2 => (⟨.gte, ">="⟩, r2)
      | _ => (⟨.gt, ">"⟩, r)
    else if c = '+' then
      match r with
      | '+' :: r2 => (⟨.plusplus, "++"⟩, r2)
      | _ => (⟨.plus, "+"⟩, r)
    else if c = '-' then
      match r with
      | '-' :: r2 => (⟨.minusminus, "--"⟩, r2)
      | _ => (⟨.minus, "-"⟩, r)
    else if c = '{' then (⟨.lbrace, "\x7b"⟩, r)
    else if c = '}' then (⟨.rbrace, "\x7d"⟩, r)
    else if c = '[' then (⟨.lbracket, "["⟩, r)
    else if c = ']' then (⟨.rbracket, "]"⟩, r)
    else if c = ',' then (⟨.comma, ","⟩, r)
    else if c = '.' then (⟨.dot, "."⟩, r)
    else if c = '"' then
      let p := readString r
      (⟨.str, p.1⟩, p.2)
    else if c = '\x00' then (eofTok, c :: r)
    else if isLetter c then
      let p := readIdentifier (c :: r)
      (⟨lookupKeyword p.1, p.1⟩, p.2)
    else if isDigit c then
      let p := readNumber (c :: r)
      (⟨.number, p.1⟩, p.2)
    else (eofTok, c :: r)

/-- Go `NextToken`: skip whitespace, then a `#` comment, then
whitespace again, and dispatch. -/
def nextToken (cs : List Char) : Token × List Char :=
  nextTokenCore (skipWhitespace (skipComment (skipWhitespace cs)))

/-- Eager token stream: Go's parser pulls tokens one at a time until the
first token of type `TOKEN_EOF`, after which every further pull returns
an EOF-typed token again, so the eager list up to the first EOF is an
exact model of the stream the parser consumes.  Fuel bounds the number
of tokens; since every non-EOF token consumes at least one character,
`length + 1` fuel is always enough. -/
def tokenizeF : Nat → List Char → List Token
  | 0, _ => []
  | fuel + 1, cs =>
    let p := nextToken cs
    if p.1.type = .eof then [] else p.1 :: tokenizeF fuel p.2

/-! ## AST

The Go `Node` interface with its closed set of struct variants, split
into value expressions (exactly the shapes `parseValue` can return) and
statements.  `IfStatement.Alternative` is a Go slice that is `nil`
exactly when it is empty (the parser only ever appends), and
`executeIf` treats nil and empty alike (running an empty sequence is a
no-op), so it is modelled as a plain list. -/

inductive VExpr where
  | str (value : String)
  | num (value : Dec)
  | bool (value : Bool)
  | ident (name : String)
  | list (elements : List VExpr)

structure CondData where
  left : VExpr
  operator : String
  right : VExpr

inductive Stmt where
  | assign (name : String) (value : VExpr)
  | ask (instruction : String)
  | ifS (condition : CondData) (consequence : List Stmt) (alternative : List Stmt)
  | repeatS (count : Int) (body : List Stmt)
  | before (statements : List Stmt)
  | after (statements : List Stmt)
  | shell (command : String)
  | mcp (service : String) (method : String) (arg : String)
  | incdec (name : String) (operator : String)

structure Program where
  statements : List Stmt

mutual

def VExpr.beq : VExpr → VExpr → Bool
  | .str a, .str b => a == b
  | .num a, .num b => a == b
  | .bool a, .bool b => a == b
  | .ident a, .ident b => a == b
  | .list as, .list bs => VExpr.beqList as bs
  | _, _ => false

def VExpr.beqList : List VExpr → List VExpr → Bool
  | [], [] => true
  | a :: as, b :: bs => VExpr.beq a b && VExpr.beqList as bs
  | _, _ => false

end

mutual

theorem VExpr.vbeq_iff : ∀ (a b : VExpr), VExpr.beq a b = true ↔ a = b
  | .str a, b => by cases b <;> simp [VExpr.beq]
  | .num a, b => by cases b <;> simp [VExpr.beq]
  | .bool a, b => by cases b <;> simp [VExpr.beq]
  | .ident a, b => by cases b <;> simp [VExpr.beq]
  | .list as, .str b => by simp [VExpr.beq]
  | .list as, .num b => by simp [VExpr.beq]
  | .list as, .bool b => by simp [VExpr.beq]
  | .list as, .ident b => by simp [VExpr.beq]
  | .list as, .list bs => by simp [VExpr.beq, VExpr.vbeqList_iff as bs]

theorem VExpr.vbeqList_iff : ∀ (as bs : List VExpr), VExpr.beqList as bs = true ↔ as = bs
  | [], [] => by simp [VExpr.beqList]
  | [], b :: bs => by simp [VExpr.beqList]
  | a :: as, [] => by simp [VExpr.beqList]
  | a :: as, b :: bs => by
    simp [VExpr.beqList, VExpr.vbeq_iff a b, VExpr.vbeqList_iff as bs]

end

instance : DecidableEq VExpr := fun a b => decidable_of_iff _ (VExpr.vbeq_iff a b)

instance : DecidableEq CondData := fun a b =>
  match a, b with
  | ⟨l, o, r⟩, ⟨l2, o2, r2⟩ =>
    decidable_of_iff (l = l2 ∧ o = o2 ∧ r = r2)
      (by constructor
          · rintro ⟨rfl, rfl, rfl⟩; rfl
          · intro h; cases h; exact ⟨rfl, rfl, rfl⟩)

mutual

def Stmt.beq : Stmt → Stmt → Bool
  | .assign n v, .assign n2 v2 => n == n2 && v == v2
  | .ask a, .ask b => a == b
  | .ifS c cs alt, .ifS c2 cs2 alt2 => c == c2 && Stmt.beqList cs cs2 && Stmt.beqList alt alt2
  | .repeatS n b, .repeatS n2 b2 => n == n2 && Stmt.beqList b b2
  | .before a, .before b => Stmt.beqList a b
  | .after a, .after b => Stmt.beqList a b
  | .shell a, .shell b => a == b
  | .mcp s m a, .mcp s2 m2 a2 => s == s2 && m == m2 && a == a2
  | .incdec n o, .incdec n2 o2 => n == n2 && o == o2
  | _, _ => false

def Stmt.beqList : List Stmt → List Stmt → Bool
  | [], [] => true
  | a :: as, b :: bs => Stmt.beq a b && Stmt.beqList as bs
  | _, _ => false

end

mutual

theorem Stmt.sbeq_iff : ∀ (a b : Stmt), Stmt.beq a b = true ↔ a = b
  | .assign n v, b => by cases b <;> simp [Stmt.beq]
  | .ask a, b => by cases b <;> simp [Stmt.beq]
  | .shell a, b => by cases b <;> simp [Stmt.beq]
  | .mcp s m a, b => by cases b <;> simp [Stmt.beq, and_assoc]
  | .incdec n o, b => by cases b <;> simp [Stmt.beq]
  | .ifS c cs alt, b => by
    cases b <;>
      simp [Stmt.beq, Stmt.sbeqList_iff cs _, Stmt.sbeqList_iff alt _, and_assoc]
  | .repeatS n bd, b => by cases b <;> simp [Stmt.beq, Stmt.sbeqList_iff bd _]
  | .before a, b => by cases b <;> simp [Stmt.beq, Stmt.sbeqList_iff a _]
  | .after a, b => by cases b <;> simp [Stmt.beq, Stmt.sbeqList_iff a _]

theorem Stmt.sbeqList_iff : ∀ (as bs : List Stmt), Stmt.beqList as bs = true ↔ as = bs
  | [], [] => by simp [Stmt.beqList]
  | [], b :: bs => by simp [Stmt.beqList]
  | a :: as, [] => by simp [Stmt.beqList]
  | a :: as, b :: bs => by
    simp [Stmt.beqList, Stmt.sbeq_iff a b, Stmt.sbeqList_iff as bs]

end

instance : DecidableEq Stmt := fun a b => decidable_of_iff _ (Stmt.sbeq_iff a b)

instance : DecidableEq Program := fun a b =>
  match a, b with
  | ⟨s⟩, ⟨s2⟩ =>
    decidable_of_iff (s = s2)
      (by constructor
          · rintro rfl; rfl
          · intro h; cases h; rfl)

/-! ## The `String()` printers of the AST nodes -/

mutual

def vString : VExpr → String
  | .str v => "\"" ++ v ++ "\""
  | .num v => gFormat v
  | .bool b => if b then "True" else "False"
  | .ident n => n
  | .list es => "[" ++ vStringJoin es ++ "]"

/-- The `strings.Join(elements, ", ")` of `ListLiteral.String`. -/
def vStringJoin : List VExpr → String
  | [] => ""
  | [e] => vString e
  | e :: es => vString e ++ ", " ++ vStringJoin es

end

def condString (c : CondData) : String :=
  vString c.left ++ " " ++ c.operator ++ " " ++ vString c.right

/-- The `String()` methods of the statement nodes.  Block statements
print their bodies as the literal three dots, which is what makes the
print→parse round trip lose block bodies. -/
def stmtString : Stmt → String
  | .assign n v => n ++ " = " ++ vString v
  | .ask ins => "ask \"" ++ ins ++ "\""
  | .ifS c _ _ => "if " ++ condString c ++ " \x7b ... \x7d"
  | .repeatS c _ => "repeat " ++ toString c ++ " \x7b ... \x7d"
  | .before _ => "before \x7b ... \x7d"
  | .after _ => "after \x7b ... \x7d"
  | .shell cmd => "shell \"" ++ cmd ++ "\""
  | .mcp s m a =>
    if a ≠ "" then s ++ "." ++ m ++ " \"" ++ a ++ "\"" else s ++ "." ++ m
  | .incdec n op => n ++ op

def programStringAux : List Stmt → String
  | [] => ""
  | s :: ss => stmtString s ++ "\n" ++ programStringAux ss

def programString (p : Program) : String :=
  programStringAux p.statements

/-! ## Models of the strconv conversions used by the parser -/

def digitsToNat (ds : List Char) : Nat :=
  ds.foldl (fun a c => a * 10 + (c.toNat - 48)) 0

/-- Model of Go `strconv.ParseFloat(s, 64)` on plain decimal inputs:
optional sign, decimal digits with an optional fractional part and an
optional exponent; `none` models a syntax error.  (`Inf`/`NaN`, hex
floats and digit-separating underscores are outside the model; machine
overflow/rounding of extreme literals likewise.) -/
def parseFloatChars (cs : List Char) : Option Dec :=
  let sgn : Int × List Char :=
    match cs with
    | '+' :: r => (1, r)
    | '-' :: r => (-1, r)
    | _ => (1, cs)
  let ip := sgn.2.takeWhile isDigit
  let r1 := sgn.2.dropWhile isDigit
  let fr : List Char × List Char :=
    match r1 with
    | '.' :: r2 => (r2.takeWhile isDigit, r2.dropWhile isDigit)
    | _ => ([], r1)
  if ip.isEmpty && fr.1.isEmpty then none
  else
    let mant : Dec := ⟨sgn.1 * (digitsToNat (ip ++ fr.1) : Int), fr.1.length⟩
    match fr.2 with
    | [] => some mant
    | 'e' :: r3 | 'E' :: r3 =>
      let esgn : Int × List Char :=
        match r3 with
        | '+' :: r4 => (1, r4)
        | '-' :: r4 => (-1, r4)
        | _ => (1, r3)
      let ed := esgn.2.takeWhile isDigit
      let r5 := esgn.2.dropWhile isDigit
      if ed.isEmpty || !r5.isEmpty then none
      else
        let ex : Int := esgn.1 * (digitsToNat ed : Int)
        if 0 ≤ ex then some ⟨mant.m * (10 : Int) ^ ex.toNat, mant.e⟩
        else some ⟨mant.m, mant.e + (-ex).toNat⟩
    | _ => none

/-- Go `num, _ := strconv.ParseFloat(lit, 64)`: the error is discarded
and the zero value is kept. -/
def parseFloatGo (s : String) : Dec :=
  (parseFloatChars s.toList).getD ⟨0, 0⟩

/-- Model of Go `count, _ = strconv.Atoi(lit)` as used by
`parseRepeatStatement`: a decimal integer or, on a syntax error, 0.
(Range clamping of out-of-range literals is outside the model.) -/
def atoiGo (s : String) : Int :=
  match s.toList with
  | '-' :: ds => if !ds.isEmpty && ds.all isDigit then -(digitsToNat ds : Int) else 0
  | '+' :: ds => if !ds.isEmpty && ds.all isDigit then (digitsToNat ds : Int) else 0
  | ds => if !ds.isEmpty && ds.all isDigit then (digitsToNat ds : Int) else 0

/-! ## Parser

Embedding of the recursive-descent `Parser` from main.go.  The
`curToken`/`peekToken` window over the lazy lexer is modelled by the
eager token list; the zero-value `TOKEN_EOF` tokens the Go stream
produces after its end correspond to reading past the end of the list
(`head?.getD eofTok`).  The fuel parameter bounds recursion only: the
Go parser loops forever on some malformed inputs (e.g. `x = [=]`,
where `parseValue` consumes nothing and the list loop never advances),
so a total embedding needs it; on well-formed inputs any sufficiently
large fuel yields the Go result. -/

def curTok (ts : List Token) : Token := ts.head?.getD eofTok

def curT (ts : List Token) : TokenType := (curTok ts).type

def curLit (ts : List Token) : String := (curTok ts).literal

def peekT (ts : List Token) : TokenType := (ts.tail.head?.getD eofTok).type

def skipNewlines (ts : List Token) : List Token :=
  ts.dropWhile (fun t => t.type == TokenType.newline)

def parseUnquotedString (ts : List Token) : VExpr × List Token :=
  match ts with
  | ⟨.identifier, lit⟩ :: r => (.str lit, r)
  | _ => (.str "", ts)

mutual

def parseValueF : Nat → List Token → VExpr × List Token
  | 0, ts => (.str "", ts)
  | fuel + 1, ts =>
    match ts with
    | ⟨.str, lit⟩ :: r => (.str lit, r)
    | ⟨.number, lit⟩ :: r => (.num (parseFloatGo lit), r)
    | ⟨.boolean, lit⟩ :: r => (.bool (lit == "True"), r)
    | ⟨.lbracket, _⟩ :: _ => parseListF fuel ts
    | ⟨.identifier, lit⟩ :: r => (.ident lit, r)
    | _ => parseUnquotedString ts

def parseListF : Nat → List Token → VExpr × List Token
  | 0, ts => (.list [], ts)
  | fuel + 1, ts =>
    let p := parseListLoop fuel ts.tail []
    (.list p.1, if curT p.2 = .rbracket then p.2.tail else p.2)

def parseListLoop : Nat → List Token → List VExpr → List VExpr × List Token
  | 0, ts, acc => (acc, ts)
  | fuel + 1, ts, acc =>
    if curT ts = .rbracket ∨ curT ts = .eof then (acc, ts)
    else
      let ts1 := skipNewlines ts
      let pe := parseValueF fuel ts1
      let acc2 := acc ++ [pe.1]
      let ts3 := if curT pe.2 = .comma then pe.2.tail else pe.2
      parseListLoop fuel (skipNewlines ts3) acc2

end

def parseAssignmentF (fuel : Nat) (ts : List Token) : Stmt × List Token :=
  let name := curLit ts
  let ts1 := ts.tail
  let ts2 := if curT ts1 = .assign then ts1.tail else ts1
  let p := parseValueF fuel ts2
  (.assign name p.1, p.2)

def parseConditionF (fuel : Nat) (ts : List Token) : CondData × List Token :=
  let pl := parseValueF fuel ts
  let op :=
    match curT pl.2 with
    | .eq => "=="
    | .neq => "!="
    | .lt => "<"
    | .gt => ">"
    | .lte => "<="
    | .gte => ">="
    | _ => "=="
  let pr := parseValueF fuel pl.2.tail
  (⟨pl.1, op, pr.1⟩, pr.2)

def parseAskStatement (ts : List Token) : Stmt × List Token :=
  match ts.tail with
  | ⟨.str, lit⟩ :: r2 => (.ask lit, r2)
  | r => (.ask "", r)

def parseShellCommand (ts : List Token) : Stmt × List Token :=
  match ts.tail with
  | ⟨.str, lit⟩ :: r2 => (.shell lit, r2)
  | r => (.shell "", r)

def parseMCPCall (ts : List Token) : Stmt × List Token :=
  let service := curLit ts
  let r1 := ts.tail.tail
  let method := curLit r1
  match r1.tail with
  | ⟨.str, lit⟩ :: r3 => (.mcp service method lit, r3)
  | r2 => (.mcp service method "", r2)

def parseIncrementDecrement (ts : List Token) : Stmt × List Token :=
  let name := curLit ts
  let r1 := ts.tail
  (.incdec name (curLit r1), r1.tail)

mutual

def parseStatementF : Nat → List Token → Option Stmt × List Token
  | 0, ts => (none, ts)
  | fuel + 1, ts =>
    match curT ts with
    | .kwAsk => let p := parseAskStatement ts; (some p.1, p.2)
    | .kwIf => parseIfF fuel ts
    | .kwRepeat => parseRepeatF fuel ts
    | .kwBefore => parseBeforeF fuel ts
    | .kwAfter => parseAfterF fuel ts
    | .kwShell => let p := parseShellCommand ts; (some p.1, p.2)
    | .identifier =>
      match peekT ts with
      | .assign => let p := parseAssignmentF fuel ts; (some p.1, p.2)
      | .dot => let p := parseMCPCall ts; (some p.1, p.2)
      | .plusplus => let p := parseIncrementDecrement ts; (some p.1, p.2)
      | .minusminus => let p := parseIncrementDecrement ts; (some p.1, p.2)
      | _ => let p := parseAssignmentF fuel ts; (some p.1, p.2)
    | _ => (none, ts.tail)

def blockIterF : Nat → List Token → List Stmt → List Stmt × List Token
  | 0, ts, acc => (acc, ts)
  | fuel + 1, ts, acc =>
    if curT ts = .rbrace ∨ curT ts = .eof then (acc, ts)
    else
      let ts1 := skipNewlines ts
      if curT ts1 = .rbrace then (acc, ts1)
      else
        let p := parseStatementF fuel ts1
        blockIterF fuel p.2 (match p.1 with | some s => acc ++ [s] | none => acc)

/-- The shared shape of the four block-body loops (if consequence, if
alternative, repeat, before, after), which are textually identical in
the Go source, together with the trailing `if cur == RBRACE` consume. -/
def parseBlockBodyF : Nat → List Token → List Stmt × List Token
  | 0, ts => ([], ts)
  | fuel + 1, ts =>
    let p := blockIterF fuel ts []
    (p.1, if curT p.2 = .rbrace then p.2.tail else p.2)

def parseIfF : Nat → List Token → Option Stmt × List Token
  | 0, ts => (none, ts)
  | fuel + 1, ts =>
    let pc := parseConditionF fuel ts.tail
    let ts2 := skipNewlines pc.2
    if curT ts2 ≠ .lbrace then (none, ts2)
    else
      let pb := parseBlockBodyF fuel ts2.tail
      let ts3 := skipNewlines pb.2
      if curT ts3 = .kwElse then
        let ts4 := skipNewlines ts3.tail
        if curT ts4 = .lbrace then
          let pa := parseBlockBodyF fuel ts4.tail
          (some (.ifS pc.1 pb.1 pa.1), pa.2)
        else (some (.ifS pc.1 pb.1 []), ts4)
      else (some (.ifS pc.1 pb.1 []), ts3)

def parseRepeatF : Nat → List Token → Option Stmt × List Token
  | 0, ts => (none, ts)
  | fuel + 1, ts =>
    let cp : Int × List Token :=
      match ts.tail with
      | ⟨.number, lit⟩ :: r => (atoiGo lit, r)
      | r => (1, r)
    let ts2 := skipNewlines cp.2
    if curT ts2 ≠ .lbrace then (none, ts2)
    else
      let pb := parseBlockBodyF fuel ts2.tail
      (some (.repeatS cp.1 pb.1), pb.2)

def parseBeforeF : Nat → List Token → Option Stmt × List Token
  | 0, ts => (none, ts)
  | fuel + 1, ts =>
    let ts1 := skipNewlines ts.tail
    if curT ts1 ≠ .lbrace then (some (.before []), ts1)
    else
      let pb := parseBlockBodyF fuel ts1.tail
      (some (.before pb.1), pb.2)

def parseAfterF : Nat → List Token → Option Stmt × List Token
  | 0, ts => (none, ts)
  | fuel + 1, ts =>
    let ts1 := skipNewlines ts.tail
    if curT ts1 ≠ .lbrace then (some (.after []), ts1)
    else
      let pb := parseBlockBodyF fuel ts1.tail
      (some (.after pb.1), pb.2)

end

/-- The `Parser.Parse` top-level loop. -/
def progIterF : Nat → List Token → List Stmt → List Stmt
  | 0, _, acc => acc
  | fuel + 1, ts, acc =>
    if curT ts = .eof then acc
    else
      let ts1 := skipNewlines ts
      if curT ts1 = .eof then acc
      else
        let p := parseStatementF fuel ts1
        progIterF fuel (skipNewlines p.2) (match p.1 with | some s => acc ++ [s] | none => acc)

def parseTokensF (fuel : Nat) (ts : List Token) : Program :=
  ⟨progIterF fuel ts []⟩

/-- Lex and parse a script, with one fuel bound for both phases. -/
def parseProgramF (fuel : Nat) (input : String) : Program :=
  parseTokensF fuel (tokenizeF fuel input.toList)

/-! ## Runtime values and the environment

The Go environment is `map[string]interface{}` holding `string`,
`float64`, `bool` or `[]interface{}` values.  It is modelled as an
association list with in-place update, which reproduces the map's
lookup behaviour exactly (iteration order is never observed by the
interpreter's modelled outputs). -/

inductive Value where
  | vstr (s : String)
  | vnum (d : Dec)
  | vbool (b : Bool)
  | vlist (xs : List Value)

mutual

def Value.beq : Value → Value → Bool
  | .vstr a, .vstr b => a == b
  | .vnum a, .vnum b => a == b
  | .vbool a, .vbool b => a == b
  | .vlist as, .vlist bs => Value.beqList as bs
  | _, _ => false

def Value.beqList : List Value → List Value → Bool
  | [], [] => true
  | a :: as, b :: bs => Value.beq a b && Value.beqList as bs
  | _, _ => false

end

mutual

theorem Value.valbeq_iff : ∀ (a b : Value), Value.beq a b = true ↔ a = b
  | .vstr a, b => by cases b <;> simp [Value.beq]
  | .vnum a, b => by cases b <;> simp [Value.beq]
  | .vbool a, b => by cases b <;> simp [Value.beq]
  | .vlist as, .vstr b => by simp [Value.beq]
  | .vlist as, .vnum b => by simp [Value.beq]
  | .vlist as, .vbool b => by simp [Value.beq]
  | .vlist as, .vlist bs => by simp [Value.beq, Value.valbeqList_iff as bs]

theorem Value.valbeqList_iff : ∀ (as bs : List Value), Value.beqList as bs = true ↔ as = bs
  | [], [] => by simp [Value.beqList]
  | [], b :: bs => by simp [Value.beqList]
  | a :: as, [] => by simp [Value.beqList]
  | a :: as, b :: bs => by
    simp [Value.beqList, Value.valbeq_iff a b, Value.valbeqList_iff as bs]

end

instance : DecidableEq Value := fun a b => decidable_of_iff _ (Value.valbeq_iff a b)

def lookupAssoc {α : Type} : List (String × α) → String → Option α
  | [], _ => none
  | (k, v) :: rest, n => if k = n then some v else lookupAssoc rest n

def setAssoc {α : Type} : List (String × α) → String → α → List (String × α)
  | [], n, v => [(n, v)]
  | (k, u) :: rest, n, v => if k = n then (n, v) :: rest else (k, u) :: setAssoc rest n v

abbrev Env : Type := List (String × Value)

mutual

/-- Go `fmt.Sprintf("%v", x)` on the dynamic values the interpreter
stores: strings print verbatim, float64 with `%g`, bools as
`true`/`false`, and slices as the space-separated bracketed form. -/
def sprintV : Value → String
  | .vstr s => s
  | .vnum d => gFormat d
  | .vbool b => if b then "true" else "false"
  | .vlist xs => "[" ++ sprintVJoin xs ++ "]"

def sprintVJoin : List Value → String
  | [] => ""
  | [v] => sprintV v
  | v :: vs => sprintV v ++ " " ++ sprintVJoin vs

end

/-- Go `toFloat`: float64 and bool coerce directly, strings through
`strconv.ParseFloat` with the error ignored (yielding 0), anything else
(the slice values) to 0.  The `int` case of the Go switch is dead code:
the environment never holds an `int`. -/
def toFloat : Value → Dec
  | .vnum d => d
  | .vstr s => parseFloatGo s
  | .vbool b => if b then ⟨1, 0⟩ else ⟨0, 0⟩
  | .vlist _ => ⟨0, 0⟩

/-! ## Evaluation -/

mutual

def evalValue : VExpr → Env → Value
  | .str s, _ => .vstr s
  | .num d, _ => .vnum d
  | .bool b, _ => .vbool b
  | .ident n, env =>
    match lookupAssoc env n with
    | some v => v
    | none => .vstr n
  | .list es, env => .vlist (evalValueList es env)

def evalValueList : List VExpr → Env → List Value
  | [], _ => []
  | e :: es, env => evalValue e env :: evalValueList es env

end

def evalCondition (c : CondData) (env : Env) : Bool :=
  let l := evalValue c.left env
  let r := evalValue c.right env
  match c.operator with
  | "==" => sprintV l == sprintV r
  | "!=" => sprintV l != sprintV r
  | "<" => Dec.blt (toFloat l) (toFloat r)
  | ">" => Dec.blt (toFloat r) (toFloat l)
  | "<=" => Dec.ble (toFloat l) (toFloat r)
  | ">=" => Dec.ble (toFloat r) (toFloat l)
  | _ => false

/-! ## Prompt building -/

/-- Go `buildContext`: a copy of the variable map. -/
def buildContext (env : Env) : Env := env

def formatValue : Value → String
  | .vlist xs => String.intercalate ", " (xs.map sprintV)
  | v => sprintV v

def promptLine (context : Env) (key label : String) : String :=
  match lookupAssoc context key with
  | some v => label ++ sprintV v ++ "\n"
  | none => ""

def promptLineF (context : Env) (key label : String) : String :=
  match lookupAssoc context key with
  | some v => label ++ formatValue v ++ "\n"
  | none => ""

def buildPrompt (instruction : String) (context : Env) : String :=
  "You are building a project with the following specifications:\n\n"
  ++ promptLine context "project" "Project Name: "
  ++ promptLine context "victim" "Target Platform: "
  ++ promptLine context "frontend" "Frontend: "
  ++ promptLine context "backend" "Backend: "
  ++ promptLine context "db" "Database: "
  ++ promptLineF context "ai" "AI Features: "
  ++ promptLineF context "tools" "Tools: "
  ++ (match lookupAssoc context "task" with
      | some v => "\nMain Task: " ++ sprintV v ++ "\n"
      | none => "")
  ++ "\nCurrent Step: " ++ instruction ++ "\n"
  ++ "\nPlease implement this step. Create all necessary files and code."

/-! ## External world oracle and side-effect events

`World` fixes the outcome of every external call the interpreter can
make: `none` means the call succeeds, `some msg` that it fails with the
given error message.  Events record the side-effecting calls actually
performed, in order; verbose logging to stdout is not an event. -/

structure World where
  shellErr : String → Option String
  claudeErr : String → Option String
  fsWriteErr : String → String → Option String
  fsMkdirErr : String → Option String
  fsReadErr : String → Option String

structure Config where
  dryRun : Bool
  world : World

inductive Event where
  | askClaude (prompt : String)
  | shellRun (cmd : String)
  | mcpShellRun (cmd : String)
  | fsWrite (path : String) (content : String) (perm : Nat)
  | fsMkdir (path : String) (perm : Nat)
  | fsRead (path : String)
  deriving DecidableEq, Repr

/-- Result of executing a piece of the program: final environment,
emitted events, and an optional (fatal) error message. -/
abbrev ExecResult : Type := Env × List Event × Option String

/-! ## JSON argument model for `fs.write`

Model of `json.Unmarshal(arg, &map[string]string{})`: an object whose
keys and values are JSON strings (with the single-character escapes);
any other input — non-object input, non-string values, trailing data,
`\u` escapes — is out of the modelled success set and maps to `none`
(an unmarshal error). -/

def jsonWs (cs : List Char) : List Char :=
  cs.dropWhile (fun c => c = ' ' || c = '\t' || c = '\n' || c = '\r')

def parseJsonStringAux : Nat → List Char → Option (List Char × List Char)
  | 0, _ => none
  | fuel + 1, cs =>
    match cs with
    | '"' :: r => some ([], r)
    | '\\' :: e :: r =>
      let c? : Option Char :=
        if e = '"' then some '"'
        else if e = '\\' then some '\\'
        else if e = '/' then some '/'
        else if e = 'b' then some (Char.ofNat 8)
        else if e = 'f' then some (Char.ofNat 12)
        else if e = 'n' then some '\n'
        else if e = 'r' then some '\r'
        else if e = 't' then some '\t'
        else none
      match c? with
      | none => none
      | some c =>
        match parseJsonStringAux fuel r with
        | some (s, rest) => some (c :: s, rest)
        | none => none
    | c :: r =>
      match parseJsonStringAux fuel r with
      | some (s, rest) => some (c :: s, rest)
      | none => none
    | [] => none

def parseJsonMembers : Nat → List Char → List (String × String) →
    Option (List (String × String) × List Char)
  | 0, _, _ => none
  | fuel + 1, cs, acc =>
    match jsonWs cs with
    | '"' :: r =>
      match parseJsonStringAux fuel r with
      | none => none
      | some (k, r2) =>
        match jsonWs r2 with
        | ':' :: r4 =>
          match jsonWs r4 with
          | '"' :: r6 =>
            match parseJsonStringAux fuel r6 with
            | none => none
            | some (v, r7) =>
              let acc2 := setAssoc acc ⟨k⟩ ⟨v⟩
              match jsonWs r7 with
              | ',' :: r9 => parseJsonMembers fuel r9 acc2
              | '}' :: r10 => some (acc2, r10)
              | _ => none
          | _ => none
        | _ => none
    | _ => none

def parseJsonObj (s : String) : Option (List (String × String)) :=
  match jsonWs s.toList with
  | '{' :: r =>
    match jsonWs r with
    | '}' :: r2 => if (jsonWs r2).isEmpty then some [] else none
    | _ =>
      match parseJsonMembers (s.length + 1) r [] with
      | some (m, rest) => if (jsonWs rest).isEmpty then some m else none
      | none => none
  | _ => none

/-! ## Statement execution -/

/-- Go `callClaudeCode`: the CLI is invoked with the prompt; if
`cmd.Run()` fails the interpreter logs the prompt and returns `nil`
(the error is swallowed in both branches). -/
def callClaudeCode (cfg : Config) (prompt : String) (env : Env) : ExecResult :=
  match cfg.world.claudeErr prompt with
  | some _ => (env, [.askClaude prompt], none)
  | none => (env, [.askClaude prompt], none)

def executeAsk (cfg : Config) (instruction : String) (env : Env) : ExecResult :=
  let prompt := buildPrompt instruction (buildContext env)
  if cfg.dryRun then (env, [], none)
  else callClaudeCode cfg prompt env

def executeShell (cfg : Config) (command : String) (env : Env) : ExecResult :=
  if cfg.dryRun then (env, [], none)
  else
    match cfg.world.shellErr command with
    | some msg => (env, [.shellRun command], some ("shell command failed: " ++ msg))
    | none => (env, [.shellRun command], none)

/-- Go `executeMCP`.  File-system events are recorded on the success
path (a failing `os.WriteFile`/`MkdirAll`/`ReadFile` performs no
modelled write); a `shell.run` records its invocation whether or not
the command fails.  `browser.*`, unknown services, unknown methods, a
JSON argument that does not unmarshal, and a JSON object without
`"path"` all leave `cmd == nil` and return `nil` with no event. -/
def executeMCP (cfg : Config) (service method arg : String) (env : Env) : ExecResult :=
  if cfg.dryRun then (env, [], none)
  else if service = "shell" then
    if method = "run" then
      match cfg.world.shellErr arg with
      | some msg => (env, [.mcpShellRun arg], some ("MCP command failed: " ++ msg))
      | none => (env, [.mcpShellRun arg], none)
    else (env, [], none)
  else if service = "fs" then
    if method = "write" then
      match parseJsonObj arg with
      | some m =>
        match lookupAssoc m "path" with
        | some path =>
          let content := (lookupAssoc m "content").getD ""
          match cfg.world.fsWriteErr path content with
          | some msg => (env, [], some ("fs.write failed: " ++ msg))
          | none => (env, [.fsWrite path content 0o644], none)
        | none => (env, [], none)
      | none => (env, [], none)
    else if method = "mkdir" then
      match cfg.world.fsMkdirErr arg with
      | some msg => (env, [], some ("fs.mkdir failed: " ++ msg))
      | none => (env, [.fsMkdir arg 0o755], none)
    else if method = "read" then
      match cfg.world.fsReadErr arg with
      | some msg => (env, [], some ("fs.read failed: " ++ msg))
      | none => (env, [.fsRead arg], none)
    else (env, [], none)
  else (env, [], none)

/-- Go `executeIncrementDecrement`: mutate only a bound float64
variable; `++` adds one, any other operator subtracts one. -/
def executeIncrementDecrement (name operator : String) (env : Env) : Env :=
  match lookupAssoc env name with
  | some (.vnum num) =>
    if operator = "++" then setAssoc env name (.vnum num.add1)
    else setAssoc env name (.vnum num.sub1)
  | _ => env

/-- Go `executeHook`: only `ShellCommand` and `MCPCall` nodes act; every
other node kind is silently ignored. -/
def executeHook (cfg : Config) (hook : Stmt) (env : Env) : ExecResult :=
  match hook with
  | .shell cmd => executeShell cfg cmd env
  | .mcp s m a => executeMCP cfg s m a env
  | _ => (env, [], none)

def executeHooks (cfg : Config) : List Stmt → Env → ExecResult
  | [], env => (env, [], none)
  | h :: rest, env =>
    let p := executeHook cfg h env
    match p.2.2 with
    | some e => (p.1, p.2.1, some e)
    | none =>
      let q := executeHooks cfg rest p.1
      (q.1, p.2.1 ++ q.2.1, q.2.2)

/-- The `for j := 0; j < count; j++` loop of Go `executeRepeat`,
abstracted over the body runner: run the body, stop at the first error,
otherwise continue with the resulting environment. -/
def executeRepeatLoop (runBody : Env → ExecResult) : Nat → Env → ExecResult
  | 0, env => (env, [], none)
  | k + 1, env =>
    let p := runBody env
    match p.2.2 with
    | some e => (p.1, p.2.1, some e)
    | none =>
      let q := executeRepeatLoop runBody k p.1
      (q.1, p.2.1 ++ q.2.1, q.2.2)

mutual

/-- Go `executeStatement`: the main-pass dispatcher.  `Assignment`,
`BeforeBlock` and `AfterBlock` were already processed in the first pass
and are no-ops here. -/
def executeStatement (cfg : Config) : Stmt → Env → ExecResult
  | .assign _ _, env => (env, [], none)
  | .ask ins, env => executeAsk cfg ins env
  | .ifS c cs alt, env =>
    if evalCondition c env then executeStatements cfg cs env
    else executeStatements cfg alt env
  | .repeatS c body, env =>
    executeRepeatLoop (fun e => executeStatements cfg body e) c.toNat env
  | .shell cmd, env => executeShell cfg cmd env
  | .mcp s m a, env => executeMCP cfg s m a env
  | .incdec n op, env => (executeIncrementDecrement n op env, [], none)
  | .before _, env => (env, [], none)
  | .after _, env => (env, [], none)

def executeStatements (cfg : Config) : List Stmt → Env → ExecResult
  | [], env => (env, [], none)
  | s :: rest, env =>
    let p := executeStatement cfg s env
    match p.2.2 with
    | some e => (p.1, p.2.1, some e)
    | none =>
      let q := executeStatements cfg rest p.1
      (q.1, p.2.1 ++ q.2.1, q.2.2)

end

/-- The first pass of Go `Execute`: store every top-level assignment
(evaluating its value against the environment built so far) and append
the statements of every top-level before/after block to the hook
lists. -/
def collectPass (stmts : List Stmt) : Env × List Stmt × List Stmt :=
  stmts.foldl
    (fun acc s =>
      match s with
      | .assign n v => (setAssoc acc.1 n (evalValue v acc.1), acc.2.1, acc.2.2)
      | .before hs => (acc.1, acc.2.1 ++ hs, acc.2.2)
      | .after hs => (acc.1, acc.2.1, acc.2.2 ++ hs)
      | _ => acc)
    ([], [], [])

/-- Go `Interpreter.Execute`: collection pass, before hooks (failure is
fatal, wrapped), main pass over all top-level statements, after hooks
(failure fatal, wrapped). -/
def Execute (cfg : Config) (p : Program) : ExecResult :=
  let c := collectPass p.statements
  let h1 := executeHooks cfg c.2.1 c.1
  match h1.2.2 with
  | some e => (h1.1, h1.2.1, some ("before hook failed: " ++ e))
  | none =>
    let mn := executeStatements cfg p.statements h1.1
    match mn.2.2 with
    | some e => (mn.1, h1.2.1 ++ mn.2.1, some e)
    | none =>
      let h2 := executeHooks cfg c.2.2 mn.1
      match h2.2.2 with
      | some e => (h2.1, h1.2.1 ++ mn.2.1 ++ h2.2.1, some ("after hook failed: " ++ e))
      | none => (h2.1, h1.2.1 ++ mn.2.1 ++ h2.2.1, none)

/-! ## Auxiliary predicates and sample worlds used in the statements -/

mutual

/-- No `IncrementDecrement` statement anywhere in the tree: such
statements are the only main-pass mutators of the environment. -/
def Stmt.noIncdec : Stmt → Bool
  | .incdec _ _ => false
  | .ifS _ cs alt => Stmt.noIncdecList cs && Stmt.noIncdecList alt
  | .repeatS _ b => Stmt.noIncdecList b
  | .before hs => Stmt.noIncdecList hs
  | .after hs => Stmt.noIncdecList hs
  | _ => true

def Stmt.noIncdecList : List Stmt → Bool
  | [] => true
  | s :: ss => Stmt.noIncdec s && Stmt.noIncdecList ss

end

/-- A world in which every external call succeeds. -/
def wAllOk : World :=
  ⟨fun _ => none, fun _ => none, fun _ _ => none, fun _ => none, fun _ => none⟩

/-- A world in which the shell command `"bad"` fails and everything
else succeeds. -/
def wShellBad : World :=
  ⟨fun c => if c = "bad" then some "exit status 1" else none,
   fun _ => none, fun _ _ => none, fun _ => none, fun _ => none⟩

/-- A world in which every assistant invocation fails (and all other
calls succeed). -/
def wClaudeDown : World :=
  ⟨fun _ => none, fun _ => some "executable file not found", fun _ _ => none,
   fun _ => none, fun _ => none⟩

/-! ## Well-formedness for the print-parse round trip (C4)

The printed form of a block statement (`if`/`repeat`/`before`/`after`)
elides its body as a literal `...`, so only flat statements can round
trip.  The predicates below carve out the printable fragment: names
that lex as one identifier token (and are not keywords), strings free
of the quote and NUL characters the lexer cannot carry, numeric values
whose `%g` rendering re-lexes as one number token and re-parses to the
same value (the "modulo number formatting" caveat of the spec), and
increments only — `x--` prints as `x--`, which re-lexes as a single
identifier because `-` is an identifier character. -/

def identShaped (s : String) : Bool :=
  match s.toList with
  | [] => false
  | c :: cs => isLetter c && cs.all isIdentChar

def identOk (s : String) : Bool :=
  identShaped s && (lookupKeyword s == TokenType.identifier)

def strOk (s : String) : Bool := s.toList.all strChr

/-- A numeric value is printable when its `%g` rendering has the shape
of one number token — digits, optionally followed by a dot and at
least one digit — and re-parses (via the modelled `ParseFloat`) to the
same value; this is the "modulo value formatting of numbers" caveat
made precise. -/
def numOk (d : Dec) : Bool :=
  let cs := (gFormat d).toList
  let rest := cs.dropWhile isDigit
  !(cs.takeWhile isDigit).isEmpty &&
  (match rest with
   | [] => true
   | '.' :: f :: fs => isDigit f && fs.all isDigit
   | _ => false) &&
  (parseFloatGo (gFormat d) == d)

mutual

def vexprWf : VExpr → Bool
  | .str s => strOk s
  | .num d => numOk d
  | .bool _ => true
  | .ident n => identOk n
  | .list es => vexprWfList es

def vexprWfList : List VExpr → Bool
  | [] => true
  | e :: es => vexprWf e && vexprWfList es

end

def stmtFlatWf : Stmt → Bool
  | .assign n v => identOk n && vexprWf v
  | .ask ins => strOk ins
  | .shell cmd => strOk cmd
  | .mcp s m a => identOk s && identShaped m && strOk a
  | .incdec n op => identOk n && (op == "++")
  | _ => false

def progFlatWf (ss : List Stmt) : Bool := ss.all stmtFlatWf

/-! ## Token sequences of printed flat programs -/

mutual

def vToks : VExpr → List Token
  | .str s => [⟨.str, s⟩]
  | .num d => [⟨.number, gFormat d⟩]
  | .bool b => [⟨.boolean, if b then "True" else "False"⟩]
  | .ident n => [⟨.identifier, n⟩]
  | .list es => ⟨.lbracket, "["⟩ :: (vToksList es ++ [⟨.rbracket, "]"⟩])

def vToksList : List VExpr → List Token
  | [] => []
  | [e] => vToks e
  | e :: es => vToks e ++ ⟨.comma, ","⟩ :: vToksList es

end

def stmtToks : Stmt → List Token
  | .assign n v => ⟨.identifier, n⟩ :: ⟨.assign, "="⟩ :: vToks v
  | .ask ins => [⟨.kwAsk, "ask"⟩, ⟨.str, ins⟩]
  | .shell cmd => [⟨.kwShell, "shell"⟩, ⟨.str, cmd⟩]
  | .mcp s m a =>
    ⟨.identifier, s⟩ :: ⟨.dot, "."⟩ :: ⟨lookupKeyword m, m⟩ ::
      (if a ≠ "" then [⟨.str, a⟩] else [])
  | .incdec n _ => [⟨.identifier, n⟩, ⟨.plusplus, "++"⟩]
  | _ => []

def progToks (ss : List Stmt) : List Token :=
  (ss.map (fun s => stmtToks s ++ [⟨.newline, "\n"⟩])).flatten

/-- The characters that can follow a printed value inside a printed
flat program: end of input, the statement-separating newline, a list
comma, or a closing bracket. -/
def sepHeadOk : List Char → Bool
  | [] => true
  | c :: _ => c = '\n' || c = ',' || c = ']' 

/-! ## Parser fuel bounds for printed flat programs -/

mutual

def vNeedP : VExpr → Nat
  | .list es => vNeedListP es + 2
  | _ => 1

def vNeedListP : List VExpr → Nat
  | [] => 1
  | e :: es => vNeedP e + vNeedListP es + 1

end

def stmtNeedP : Stmt → Nat
  | .assign _ v => vNeedP v + 1
  | _ => 1

def progNeedP : List Stmt → Nat
  | [] => 1
  | s :: ss => stmtNeedP s + progNeedP ss + 1

/-- A concrete flat program exercising every printable statement kind:
assignments of all five value shapes, ask, shell, MCP calls with and
without an argument, and an increment. -/
def demoProg : List Stmt :=
  [.assign "x" (.num ⟨5, 0⟩),
   .assign "msg" (.str "hi there"),
   .assign "flag" (.bool true),
   .assign "ref" (.ident "x"),
   .assign "xs" (.list [.num ⟨15, 1⟩, .str "a", .bool false, .list []]),
   .ask "do the thing",
   .shell "ls -la",
   .mcp "fs" "read" "p.txt",
   .mcp "git" "status" "",
   .incdec "x" "++"]

/-! ## List helper lemmas -/

theorem takeWhile_append_all {α : Type} {p : α → Bool} :
    ∀ {l r : List α}, l.all p → (l ++ r).takeWhile p = l ++ r.takeWhile p := by
  intro l r h
  induction l with
  | nil => simp
  | cons c cs ih =>
    simp only [List.all_cons, Bool.and_eq_true] at h
    simp [List.takeWhile_cons, h.1, ih h.2]

theorem dropWhile_append_all {α : Type} {p : α → Bool} :
    ∀ {l r : List α}, l.all p → (l ++ r).dropWhile p = r.dropWhile p := by
  intro l r h
  induction l with
  | nil => simp
  | cons c cs ih =>
    simp only [List.all_cons, Bool.and_eq_true] at h
    simp [List.dropWhile_cons, h.1, ih h.2]

theorem takeWhile_cons_neg {α : Type} {p : α → Bool} {c : α} {r : List α} (h : p c = false) :
    (c :: r).takeWhile p = [] := by
  simp [List.takeWhile_cons, h]

theorem dropWhile_cons_neg {α : Type} {p : α → Bool} {c : α} {r : List α} (h : p c = false) :
    (c :: r).dropWhile p = c :: r := by
  simp [List.dropWhile_cons, h]

theorem toList_append (s t : String) : (s ++ t).toList = s.toList ++ t.toList := by
  cases s; cases t; rfl

/-! ## Character-class facts and single-token lemmas for the lexer -/

theorem mk_toList (s : String) : (⟨s.toList⟩ : String) = s := by
  cases s; rfl

theorem isLetter_specials (c : Char) (h : isLetter c = true) :
    c ≠ '\n' ∧ c ≠ '=' ∧ c ≠ '!' ∧ c ≠ '<' ∧ c ≠ '>' ∧ c ≠ '+' ∧ c ≠ '-' ∧
    c ≠ '\x7b' ∧ c ≠ '\x7d' ∧ c ≠ '[' ∧ c ≠ ']' ∧ c ≠ ',' ∧ c ≠ '.' ∧
    c ≠ '"' ∧ c ≠ '\x00' ∧ isWs c = false ∧ c ≠ '#' := by
  refine ⟨?_, ?_, ?_, ?_, ?_, ?_, ?_, ?_, ?_, ?_, ?_, ?_, ?_, ?_, ?_, ?_, ?_⟩ <;>
    first
    | (rintro rfl; exact absurd h (by decide))
    | (cases hw : isWs c
       · rfl
       · exfalso
         have : c = ' ' ∨ c = '\t' ∨ c = '\r' := by
           simpa [isWs, or_assoc] using hw
         rcases this with rfl | rfl | rfl <;> exact absurd h (by decide))

theorem isDigit_not_alpha (c : Char) (h : isDigit c = true) : Char.isAlpha c = false := by
  simp only [isDigit] at h
  simp [Char.isDigit, Char.isAlpha, Char.isUpper, Char.isLower, Char.le_def] at h ⊢
  obtain ⟨h1, h2⟩ := h
  have n1 : 48 ≤ c.val.toNat := h1
  have n2 : c.val.toNat ≤ 57 := h2
  constructor
  · intro h3
    have n3 : 65 ≤ c.val.toNat := h3
    exact (by omega : 90 < c.val.toNat)
  · intro h3
    have n3 : 97 ≤ c.val.toNat := h3
    exact (by omega : 122 < c.val.toNat)

theorem isDigit_specials (c : Char) (h : isDigit c = true) :
    c ≠ '\n' ∧ c ≠ '=' ∧ c ≠ '!' ∧ c ≠ '<' ∧ c ≠ '>' ∧ c ≠ '+' ∧ c ≠ '-' ∧
    c ≠ '\x7b' ∧ c ≠ '\x7d' ∧ c ≠ '[' ∧ c ≠ ']' ∧ c ≠ ',' ∧ c ≠ '.' ∧
    c ≠ '"' ∧ c ≠ '\x00' ∧ isWs c = false ∧ c ≠ '#' ∧ isLetter c = false := by
  refine ⟨?_, ?_, ?_, ?_, ?_, ?_, ?_, ?_, ?_, ?_, ?_, ?_, ?_, ?_, ?_, ?_, ?_, ?_⟩ <;>
    first
    | (rintro rfl; exact absurd h (by decide))
    | (cases hw : isWs c
       · rfl
       · exfalso
         have : c = ' ' ∨ c = '\t' ∨ c = '\r' := by
           simpa [isWs, or_assoc] using hw
         rcases this with rfl | rfl | rfl <;> exact absurd h (by decide))
    | (have ha := isDigit_not_alpha c h
       have hu : c ≠ '_' := by rintro rfl; exact absurd h (by decide)
       simp [isLetter, ha, hu])

theorem skipWhitespace_cons {c : Char} {r : List Char} (h : isWs c = false) :
    skipWhitespace (c :: r) = c :: r := by
  simp [skipWhitespace, dropWhile_cons_neg h]

theorem skipComment_cons {c : Char} {r : List Char} (h : c ≠ '#') :
    skipComment (c :: r) = c :: r := by
  unfold skipComment
  split
  · rename_i heq
    rw [List.cons.injEq] at heq
    exact absurd heq.1 h
  · rfl

theorem nextToken_core_of (c : Char) (r : List Char)
    (hws : isWs c = false) (hsh : c ≠ '#') :
    nextToken (c :: r) = nextTokenCore (c :: r) := by
  unfold nextToken
  rw [skipWhitespace_cons hws, skipComment_cons hsh, skipWhitespace_cons hws]

theorem nextToken_identLike (c : Char) (cs rest : List Char)
    (hc : isLetter c = true) (hcs : cs.all isIdentChar = true)
    (hrest : ∀ d, rest.head? = some d → isIdentChar d = false) :
    nextToken (c :: (cs ++ rest)) =
      (⟨lookupKeyword ⟨c :: cs⟩, ⟨c :: cs⟩⟩, rest) := by
  obtain ⟨s1, s2, s3, s4, s5, s6, s7, s8, s9, s10, s11, s12, s13, s14, s15, sws, ssh⟩ :=
    isLetter_specials c hc
  have hci : isIdentChar c = true := by simp [isIdentChar, hc]
  have htr : rest.takeWhile isIdentChar = [] := by
    cases rest with
    | nil => rfl
    | cons d r2 => exact takeWhile_cons_neg (hrest d rfl)
  have hdr : rest.dropWhile isIdentChar = rest := by
    cases rest with
    | nil => rfl
    | cons d r2 => exact dropWhile_cons_neg (hrest d rfl)
  have ht : (c :: (cs ++ rest)).takeWhile isIdentChar = c :: cs := by
    simp [List.takeWhile_cons, hci, takeWhile_append_all hcs, htr]
  have hd : (c :: (cs ++ rest)).dropWhile isIdentChar = rest := by
    simp [List.dropWhile_cons, hci, dropWhile_append_all hcs, hdr]
  rw [nextToken_core_of _ _ sws ssh]
  unfold nextTokenCore
  simp [s1, s2, s3, s4, s5, s6, s7, s8, s9, s10, s11, s12, s13, s14, s15, hc,
    readIdentifier, ht, hd]

theorem nextToken_string (s : String) (rest : List Char) (hs : s.toList.all strChr = true) :
    nextToken ('"' :: (s.toList ++ '"' :: rest)) = (⟨.str, s⟩, rest) := by
  have hs2 : s.data.all strChr = true := hs
  have hmk : (⟨s.data⟩ : String) = s := by cases s; rfl
  have ht : (s.data ++ '"' :: rest).takeWhile strChr = s.data := by
    simp [takeWhile_append_all hs2, takeWhile_cons_neg (show strChr '"' = false by decide)]
  have hd : (s.data ++ '"' :: rest).dropWhile strChr = '"' :: rest := by
    simp [dropWhile_append_all hs2, dropWhile_cons_neg (show strChr '"' = false by decide)]
  have hcore : nextToken ('"' :: (s.toList ++ '"' :: rest)) =
      ((⟨.str, (readString (s.toList ++ '"' :: rest)).1⟩ : Token),
       (readString (s.toList ++ '"' :: rest)).2) := rfl
  rw [hcore]
  show ((⟨.str, (readString (s.data ++ '"' :: rest)).1⟩ : Token),
       (readString (s.data ++ '"' :: rest)).2) = _
  simp [readString, ht, hd, hmk]

theorem nextToken_newline (r : List Char) :
    nextToken ('\n' :: r) = (⟨.newline, "\n"⟩, r) := rfl

theorem nextToken_space (r : List Char) : nextToken (' ' :: r) = nextToken r := rfl

theorem nextToken_dot (r : List Char) : nextToken ('.' :: r) = (⟨.dot, "."⟩, r) := rfl

theorem nextToken_lbracket (r : List Char) :
    nextToken ('[' :: r) = (⟨.lbracket, "["⟩, r) := rfl

theorem nextToken_rbracket (r : List Char) :
    nextToken (']' :: r) = (⟨.rbracket, "]"⟩, r) := rfl

theorem nextToken_comma (r : List Char) :
    nextToken (',' :: r) = (⟨.comma, ","⟩, r) := rfl

theorem nextToken_plusplus (r : List Char) :
    nextToken ('+' :: '+' :: r) = (⟨.plusplus, "++"⟩, r) := rfl

theorem nextToken_assign_space (r : List Char) :
    nextToken ('=' :: ' ' :: r) = (⟨.assign, "="⟩, ' ' :: r) := rfl

theorem tokenizeF_nil (f : Nat) : tokenizeF f [] = [] := by
  cases f <;> rfl

theorem tokenizeF_step {cs cs2 : List Char} {t : Token} (f : Nat)
    (h : nextToken cs = (t, cs2)) (ht : t.type ≠ .eof) :
    tokenizeF (f + 1) cs = t :: tokenizeF f cs2 := by
  simp [tokenizeF, h, ht]

/-! ## Number-token lemmas -/

theorem nextToken_number_int (c : Char) (cs rest : List Char)
    (hc : isDigit c = true) (hcs : cs.all isDigit = true)
    (hrest : ∀ d, rest.head? = some d → isDigit d = false ∧ d ≠ '.') :
    nextToken (c :: (cs ++ rest)) = (⟨.number, ⟨c :: cs⟩⟩, rest) := by
  obtain ⟨s1, s2, s3, s4, s5, s6, s7, s8, s9, s10, s11, s12, s13, s14, s15, sws, ssh, sl⟩ :=
    isDigit_specials c hc
  have htr : rest.takeWhile isDigit = [] := by
    cases rest with
    | nil => rfl
    | cons d r2 => exact takeWhile_cons_neg (hrest d rfl).1
  have hdr : rest.dropWhile isDigit = rest := by
    cases rest with
    | nil => rfl
    | cons d r2 => exact dropWhile_cons_neg (hrest d rfl).1
  have ht : (c :: (cs ++ rest)).takeWhile isDigit = c :: cs := by
    simp [List.takeWhile_cons, hc, takeWhile_append_all hcs, htr]
  have hd : (c :: (cs ++ rest)).dropWhile isDigit = rest := by
    simp [List.dropWhile_cons, hc, dropWhile_append_all hcs, hdr]
  have hrn : readNumber (c :: (cs ++ rest)) = (⟨c :: cs⟩, rest) := by
    unfold readNumber
    rw [ht, hd]
    dsimp only
    split
    · exact absurd rfl (hrest '.' rfl).2
    · rfl
  rw [nextToken_core_of _ _ sws ssh]
  unfold nextTokenCore
  simp [s1, s2, s3, s4, s5, s6, s7, s8, s9, s10, s11, s12, s13, s14, s15, sl, hc, hrn]

theorem nextToken_number_frac (c : Char) (cs fs rest : List Char) (f0 : Char)
    (hc : isDigit c = true) (hcs : cs.all isDigit = true)
    (hf0 : isDigit f0 = true) (hfs : fs.all isDigit = true)
    (hrest : ∀ d, rest.head? = some d → isDigit d = false) :
    nextToken (c :: (cs ++ '.' :: f0 :: (fs ++ rest))) =
      (⟨.number, ⟨c :: cs⟩ ++ "." ++ ⟨f0 :: fs⟩⟩, rest) := by
  obtain ⟨s1, s2, s3, s4, s5, s6, s7, s8, s9, s10, s11, s12, s13, s14, s15, sws, ssh, sl⟩ :=
    isDigit_specials c hc
  have htr : rest.takeWhile isDigit = [] := by
    cases rest with
    | nil => rfl
    | cons d r2 => exact takeWhile_cons_neg (hrest d rfl)
  have hdr : rest.dropWhile isDigit = rest := by
    cases rest with
    | nil => rfl
    | cons d r2 => exact dropWhile_cons_neg (hrest d rfl)
  have ht : (c :: (cs ++ '.' :: f0 :: (fs ++ rest))).takeWhile isDigit = c :: cs := by
    simp [List.takeWhile_cons, hc, takeWhile_append_all hcs,
      takeWhile_cons_neg (show isDigit '.' = false by decide)]
  have hd : (c :: (cs ++ '.' :: f0 :: (fs ++ rest))).dropWhile isDigit =
      '.' :: f0 :: (fs ++ rest) := by
    simp [List.dropWhile_cons, hc, dropWhile_append_all hcs,
      dropWhile_cons_neg (show isDigit '.' = false by decide)]
  have ht2 : (f0 :: (fs ++ rest)).takeWhile isDigit = f0 :: fs := by
    simp [List.takeWhile_cons, hf0, takeWhile_append_all hfs, htr]
  have hd2 : (f0 :: (fs ++ rest)).dropWhile isDigit = rest := by
    simp [List.dropWhile_cons, hf0, dropWhile_append_all hfs, hdr]
  have hrn : readNumber (c :: (cs ++ '.' :: f0 :: (fs ++ rest))) =
      (⟨c :: cs⟩ ++ "." ++ ⟨f0 :: fs⟩, rest) := by
    unfold readNumber
    rw [ht, hd]
    dsimp only
    simp [hf0, ht2, hd2, mk_toList]
  rw [nextToken_core_of _ _ sws ssh]
  unfold nextTokenCore
  simp [s1, s2, s3, s4, s5, s6, s7, s8, s9, s10, s11, s12, s13, s14, s15, sl, hc, hrn]

/-! ## Lexing printed values -/

theorem all_takeWhile (p : Char → Bool) : ∀ (l : List Char), (l.takeWhile p).all p = true := by
  intro l
  induction l with
  | nil => rfl
  | cons c cs ih =>
    by_cases h : p c
    · simp [List.takeWhile_cons, h, ih]
    · simp [List.takeWhile_cons, h]

theorem sepHead_numSafe {rest : List Char} (h : sepHeadOk rest = true) :
    ∀ d, rest.head? = some d → isDigit d = false ∧ d ≠ '.' := by
  intro d hd
  cases rest with
  | nil => cases hd
  | cons c r =>
    cases hd
    have : d = '\n' ∨ d = ',' ∨ d = ']' := by simpa [sepHeadOk, or_assoc] using h
    rcases this with rfl | rfl | rfl <;> exact ⟨by decide, by decide⟩

theorem sepHead_identSafe {rest : List Char} (h : sepHeadOk rest = true) :
    ∀ d, rest.head? = some d → isIdentChar d = false := by
  intro d hd
  cases rest with
  | nil => cases hd
  | cons c r =>
    cases hd
    have : d = '\n' ∨ d = ',' ∨ d = ']' := by simpa [sepHeadOk, or_assoc] using h
    rcases this with rfl | rfl | rfl <;> decide

theorem tokenizeF_ws (g : Nat) (x : List Char) :
    tokenizeF g (' ' :: x) = tokenizeF g x := by
  cases g <;> simp [tokenizeF, nextToken_space]

theorem identShaped_elim {n : String} (h : identShaped n = true) :
    ∃ c cs, n.toList = c :: cs ∧ isLetter c = true ∧ cs.all isIdentChar = true := by
  unfold identShaped at h
  cases hn : n.toList with
  | nil => rw [hn] at h; cases h
  | cons c cs =>
    rw [hn] at h
    simp only [Bool.and_eq_true] at h
    exact ⟨c, cs, rfl, h.1, h.2⟩

/-- Lexing the printed identifier-shaped word `n` followed by a
non-identifier character yields one token with literal `n`. -/
theorem nextToken_word (n : String) (rest : List Char)
    (h : identShaped n = true)
    (hrest : ∀ d, rest.head? = some d → isIdentChar d = false) :
    nextToken (n.toList ++ rest) = (⟨lookupKeyword n, n⟩, rest) := by
  obtain ⟨c, cs, hn, hc, hcs⟩ := identShaped_elim h
  have hmk : (⟨c :: cs⟩ : String) = n := by rw [← hn, mk_toList]
  rw [hn]
  rw [show (c :: cs) ++ rest = c :: (cs ++ rest) from rfl]
  rw [nextToken_identLike c cs rest hc hcs hrest, hmk]

/-- The shape of a printable number's rendering: digits, or digits
then a dot then digits. -/
theorem numOk_elim {d : Dec} (h : numOk d = true) :
    (∃ c cs, (gFormat d).toList = c :: cs ∧ isDigit c = true ∧ cs.all isDigit = true) ∨
    (∃ c cs f0 fs, (gFormat d).toList = c :: (cs ++ '.' :: f0 :: fs) ∧
       isDigit c = true ∧ cs.all isDigit = true ∧
       isDigit f0 = true ∧ fs.all isDigit = true) := by
  simp only [numOk, Bool.and_eq_true] at h
  obtain ⟨⟨hip, hshape⟩, _⟩ := h
  have hsplit := List.takeWhile_append_dropWhile (p := isDigit) (l := (gFormat d).toList)
  have hipall := all_takeWhile isDigit (gFormat d).toList
  cases hipc : (gFormat d).toList.takeWhile isDigit with
  | nil => rw [hipc] at hip; cases hip
  | cons c cs =>
    rw [hipc] at hipall hsplit
    simp only [List.all_cons, Bool.and_eq_true] at hipall
    split at hshape
    · rename_i heq
      rw [heq, List.append_nil] at hsplit
      exact Or.inl ⟨c, cs, hsplit.symm, hipall.1, hipall.2⟩
    · rename_i f0 fs heq
      rw [heq] at hsplit
      simp only [Bool.and_eq_true] at hshape
      refine Or.inr ⟨c, cs, f0, fs, ?_, hipall.1, hipall.2, hshape.1, hshape.2⟩
      rw [← hsplit]
      rfl
    · cases hshape

/-- Lexing the `%g` rendering of a printable number followed by a
separator yields one number token whose literal is that rendering. -/
theorem nextToken_gFormat (d : Dec) (rest : List Char)
    (h : numOk d = true) (hsep : sepHeadOk rest = true) :
    nextToken ((gFormat d).toList ++ rest) = (⟨.number, gFormat d⟩, rest) := by
  rcases numOk_elim h with ⟨c, cs, he, hc, hcs⟩ | ⟨c, cs, f0, fs, he, hc, hcs, hf0, hfs⟩
  · have hmk : (⟨c :: cs⟩ : String) = gFormat d := he ▸ mk_toList (gFormat d)
    rw [he, show (c :: cs) ++ rest = c :: (cs ++ rest) from rfl]
    rw [nextToken_number_int c cs rest hc hcs (sepHead_numSafe hsep), hmk]
  · have hmk : ((⟨c :: cs⟩ : String) ++ "." ++ (⟨f0 :: fs⟩ : String)) = gFormat d := by
      rw [← mk_toList (gFormat d), he]
      apply String.ext
      show (c :: cs ++ '.' :: []) ++ f0 :: fs = _
      simp
    rw [he, show (c :: (cs ++ '.' :: f0 :: fs)) ++ rest =
      c :: (cs ++ '.' :: f0 :: (fs ++ rest)) by simp]
    rw [nextToken_number_frac c cs fs rest f0 hc hcs hf0 hfs
      (fun e hec => (sepHead_numSafe hsep e hec).1), hmk]

mutual

/-- Tokenizing the printed form of a printable value, followed by a
separator character, yields exactly its token sequence. -/
theorem vLex : ∀ (v : VExpr) (rest : List Char) (f : Nat), vexprWf v = true →
    sepHeadOk rest = true →
    tokenizeF (f + (vToks v).length) ((vString v).toList ++ rest) =
      vToks v ++ tokenizeF f rest
  | .str s, rest, f, h, _ => by
    have hs : s.toList.all strChr = true := by simpa [vexprWf, strOk] using h
    have htext : (vString (.str s)).toList ++ rest = '"' :: (s.toList ++ '"' :: rest) := by
      simp [vString, toList_append]
    rw [show f + (vToks (.str s)).length = f + 1 from rfl, htext,
      tokenizeF_step f (nextToken_string s rest hs) (by simp)]
    rfl
  | .num d, rest, f, h, hsep => by
    have hn : numOk d = true := by simpa [vexprWf] using h
    rw [show f + (vToks (.num d)).length = f + 1 from rfl,
      show (vString (.num d)).toList ++ rest = (gFormat d).toList ++ rest from rfl,
      tokenizeF_step f (nextToken_gFormat d rest hn hsep) (by simp)]
    rfl
  | .bool b, rest, f, _, hsep => by
    cases b
    · have hword := nextToken_word "False" rest (by decide) (sepHead_identSafe hsep)
      rw [show f + (vToks (.bool false)).length = f + 1 from rfl,
        show (vString (.bool false)).toList ++ rest = "False".toList ++ rest from rfl,
        tokenizeF_step f hword (by decide)]
      rfl
    · have hword := nextToken_word "True" rest (by decide) (sepHead_identSafe hsep)
      rw [show f + (vToks (.bool true)).length = f + 1 from rfl,
        show (vString (.bool true)).toList ++ rest = "True".toList ++ rest from rfl,
        tokenizeF_step f hword (by decide)]
      rfl
  | .ident n, rest, f, h, hsep => by
    have ho : identShaped n = true ∧ (lookupKeyword n == TokenType.identifier) = true := by
      simpa [vexprWf, identOk] using h
    have hkw : lookupKeyword n = .identifier := by
      have := ho.2
      simpa using this
    have hword := nextToken_word n rest ho.1 (sepHead_identSafe hsep)
    rw [hkw] at hword
    rw [show f + (vToks (.ident n)).length = f + 1 from rfl,
      show (vString (.ident n)).toList ++ rest = n.toList ++ rest from rfl,
      tokenizeF_step f hword (by simp)]
    rfl
  | .list es, rest, f, h, hsep => by
    have hl : vexprWfList es = true := by simpa [vexprWf] using h
    have htext : (vString (.list es)).toList ++ rest =
        '[' :: ((vStringJoin es).toList ++ (']' :: rest)) := by
      simp [vString, toList_append]
    have harith : f + (vToks (.list es)).length =
        ((f + 1) + (vToksList es).length) + 1 := by
      simp [vToks]
      omega
    rw [htext, harith,
      tokenizeF_step _ (nextToken_lbracket ((vStringJoin es).toList ++ (']' :: rest)))
        (by simp),
      vListLex es rest (f + 1) hl,
      tokenizeF_step f (nextToken_rbracket rest) (by simp)]
    simp [vToks]

theorem vListLex : ∀ (es : List VExpr) (rest : List Char) (f : Nat),
    vexprWfList es = true →
    tokenizeF (f + (vToksList es).length) ((vStringJoin es).toList ++ (']' :: rest)) =
      vToksList es ++ tokenizeF f (']' :: rest)
  | [], rest, f, _ => by
    simp [vStringJoin, vToksList]
  | [e], rest, f, h => by
    have hw : vexprWf e = true := by simpa [vexprWfList] using h
    simpa [vStringJoin, vToksList] using vLex e (']' :: rest) f hw rfl
  | e :: e2 :: es, rest, f, h => by
    have hsplit : vexprWf e = true ∧ vexprWfList (e2 :: es) = true := by
      simpa [vexprWfList] using h
    have htext : (vStringJoin (e :: e2 :: es)).toList ++ (']' :: rest) =
        (vString e).toList ++
          (',' :: ' ' :: ((vStringJoin (e2 :: es)).toList ++ (']' :: rest))) := by
      simp [vStringJoin, toList_append]
    have harith : f + (vToksList (e :: e2 :: es)).length =
        ((f + (vToksList (e2 :: es)).length) + 1) + (vToks e).length := by
      simp [vToksList]
      omega
    rw [htext, harith,
      vLex e (',' :: ' ' :: ((vStringJoin (e2 :: es)).toList ++ (']' :: rest)))
        ((f + (vToksList (e2 :: es)).length) + 1) hsplit.1 rfl,
      tokenizeF_step _ (nextToken_comma _) (by simp),
      tokenizeF_ws,
      vListLex (e2 :: es) rest f hsplit.2]
    simp [vToksList]

end

theorem lookupKeyword_ne_eof (s : String) : lookupKeyword s ≠ TokenType.eof := by
  unfold lookupKeyword
  repeat' split
  all_goals simp

theorem headSafe_cons {c : Char} {x : List Char} (h : isIdentChar c = false) :
    ∀ d, (c :: x).head? = some d → isIdentChar d = false := by
  intro d hd
  simp only [List.head?_cons, Option.some.injEq] at hd
  subst hd
  exact h

/-- Tokenizing one printed flat statement followed by its newline
separator yields its token sequence and the newline token. -/
theorem stmtLex : ∀ (s : Stmt) (rest : List Char) (f : Nat), stmtFlatWf s = true →
    tokenizeF (f + ((stmtToks s).length + 1)) ((stmtString s).toList ++ ('\n' :: rest)) =
      stmtToks s ++ ⟨.newline, "\n"⟩ :: tokenizeF f rest := by
  intro s rest f h
  cases s with
  | assign n v =>
    have hw : identOk n = true ∧ vexprWf v = true := by
      simpa [stmtFlatWf] using h
    have hkw : lookupKeyword n = .identifier := by
      have := hw.1
      simp only [identOk, Bool.and_eq_true, beq_iff_eq] at this
      exact this.2
    have hshaped : identShaped n = true := by
      have := hw.1
      simp only [identOk, Bool.and_eq_true] at this
      exact this.1
    have htext : (stmtString (.assign n v)).toList ++ ('\n' :: rest) =
        n.toList ++ (' ' :: '=' :: ' ' :: ((vString v).toList ++ ('\n' :: rest))) := by
      simp [stmtString, toList_append]
    have hword := nextToken_word n
      (' ' :: '=' :: ' ' :: ((vString v).toList ++ ('\n' :: rest)))
      hshaped (headSafe_cons (by decide))
    rw [hkw] at hword
    have harith : f + ((stmtToks (.assign n v)).length + 1) =
        ((((f + 1) + (vToks v).length) + 1) + 1) := by
      simp [stmtToks]
      omega
    rw [htext, harith, tokenizeF_step _ hword (by simp),
      tokenizeF_ws, tokenizeF_step _ (nextToken_assign_space _) (by simp),
      tokenizeF_ws,
      vLex v ('\n' :: rest) (f + 1) hw.2 rfl,
      tokenizeF_step f (nextToken_newline rest) (by simp)]
    rfl
  | ask ins =>
    have hs : ins.toList.all strChr = true := by simpa [stmtFlatWf, strOk] using h
    have htext : (stmtString (.ask ins)).toList ++ ('\n' :: rest) =
        "ask".toList ++ (' ' :: '"' :: (ins.toList ++ '"' :: ('\n' :: rest))) := by
      simp [stmtString, toList_append]
    have hword := nextToken_word "ask"
      (' ' :: '"' :: (ins.toList ++ '"' :: ('\n' :: rest)))
      (by decide) (headSafe_cons (by decide))
    rw [htext,
      show f + ((stmtToks (.ask ins)).length + 1) = ((f + 1) + 1) + 1 from by
        simp [stmtToks],
      tokenizeF_step _ hword (by decide), tokenizeF_ws,
      tokenizeF_step _ (nextToken_string ins ('\n' :: rest) hs) (by simp),
      tokenizeF_step f (nextToken_newline rest) (by simp)]
    rfl
  | shell cmd =>
    have hs : cmd.toList.all strChr = true := by simpa [stmtFlatWf, strOk] using h
    have htext : (stmtString (.shell cmd)).toList ++ ('\n' :: rest) =
        "shell".toList ++ (' ' :: '"' :: (cmd.toList ++ '"' :: ('\n' :: rest))) := by
      simp [stmtString, toList_append]
    have hword := nextToken_word "shell"
      (' ' :: '"' :: (cmd.toList ++ '"' :: ('\n' :: rest)))
      (by decide) (headSafe_cons (by decide))
    rw [htext,
      show f + ((stmtToks (.shell cmd)).length + 1) = ((f + 1) + 1) + 1 from by
        simp [stmtToks],
      tokenizeF_step _ hword (by decide), tokenizeF_ws,
      tokenizeF_step _ (nextToken_string cmd ('\n' :: rest) hs) (by simp),
      tokenizeF_step f (nextToken_newline rest) (by simp)]
    rfl
  | mcp sv m a =>
    have hw : identOk sv = true ∧ identShaped m = true ∧ strOk a = true := by
      simpa [stmtFlatWf, and_assoc] using h
    have hkw : lookupKeyword sv = .identifier := by
      have := hw.1
      simp only [identOk, Bool.and_eq_true, beq_iff_eq] at this
      exact this.2
    have hshaped : identShaped sv = true := by
      have := hw.1
      simp only [identOk, Bool.and_eq_true] at this
      exact this.1
    by_cases ha : a = ""
    · subst ha
      have htext : (stmtString (.mcp sv m "")).toList ++ ('\n' :: rest) =
          sv.toList ++ ('.' :: (m.toList ++ ('\n' :: rest))) := by
        simp [stmtString, toList_append]
      have hword := nextToken_word sv ('.' :: (m.toList ++ ('\n' :: rest)))
        hshaped (headSafe_cons (by decide))
      rw [hkw] at hword
      have hwordm := nextToken_word m ('\n' :: rest) hw.2.1 (headSafe_cons (by decide))
      rw [htext,
        show f + ((stmtToks (.mcp sv m "")).length + 1) = (((f + 1) + 1) + 1) + 1 from by
          simp [stmtToks],
        tokenizeF_step _ hword (by simp),
        tokenizeF_step _ (nextToken_dot _) (by simp),
        tokenizeF_step _ hwordm (lookupKeyword_ne_eof m),
        tokenizeF_step f (nextToken_newline rest) (by simp)]
      simp [stmtToks]
    · have htext : (stmtString (.mcp sv m a)).toList ++ ('\n' :: rest) =
          sv.toList ++
            ('.' :: (m.toList ++ (' ' :: '"' :: (a.toList ++ '"' :: ('\n' :: rest))))) := by
        simp [stmtString, toList_append, ha]
      have hword := nextToken_word sv
        ('.' :: (m.toList ++ (' ' :: '"' :: (a.toList ++ '"' :: ('\n' :: rest)))))
        hshaped (headSafe_cons (by decide))
      rw [hkw] at hword
      have hwordm := nextToken_word m
        (' ' :: '"' :: (a.toList ++ '"' :: ('\n' :: rest)))
        hw.2.1 (headSafe_cons (by decide))
      have hsa : a.toList.all strChr = true := by
        have := hw.2.2
        simpa [strOk] using this
      rw [htext,
        show f + ((stmtToks (.mcp sv m a)).length + 1) = ((((f + 1) + 1) + 1) + 1) + 1 from by
          simp [stmtToks, ha],
        tokenizeF_step _ hword (by simp),
        tokenizeF_step _ (nextToken_dot _) (by simp),
        tokenizeF_step _ hwordm (lookupKeyword_ne_eof m),
        tokenizeF_ws,
        tokenizeF_step _ (nextToken_string a ('\n' :: rest) hsa) (by simp),
        tokenizeF_step f (nextToken_newline rest) (by simp)]
      simp [stmtToks, ha]
  | incdec n op =>
    have hw : identOk n = true ∧ op = "++" := by
      simpa [stmtFlatWf] using h
    obtain ⟨hid, hop⟩ := hw
    subst hop
    have hkw : lookupKeyword n = .identifier := by
      simp only [identOk, Bool.and_eq_true, beq_iff_eq] at hid
      exact hid.2
    have hshaped : identShaped n = true := by
      simp only [identOk, Bool.and_eq_true] at hid
      exact hid.1
    have htext : (stmtString (.incdec n "++")).toList ++ ('\n' :: rest) =
        n.toList ++ ('+' :: '+' :: ('\n' :: rest)) := by
      simp [stmtString, toList_append]
    have hword := nextToken_word n ('+' :: '+' :: ('\n' :: rest))
      hshaped (headSafe_cons (by decide))
    rw [hkw] at hword
    rw [htext,
      show f + ((stmtToks (.incdec n "++")).length + 1) = ((f + 1) + 1) + 1 from by
        simp [stmtToks],
      tokenizeF_step _ hword (by simp),
      tokenizeF_step _ (nextToken_plusplus _) (by simp),
      tokenizeF_step f (nextToken_newline rest) (by simp)]
    rfl
  | ifS c cs alt => simp [stmtFlatWf] at h
  | repeatS c b => simp [stmtFlatWf] at h
  | before b => simp [stmtFlatWf] at h
  | after b => simp [stmtFlatWf] at h

/-- Tokenizing the full printed form of a flat program yields exactly
its token sequence. -/
theorem progLex : ∀ (ss : List Stmt) (f : Nat), progFlatWf ss = true →
    tokenizeF (f + (progToks ss).length) (programStringAux ss).toList = progToks ss := by
  intro ss
  induction ss with
  | nil =>
    intro f _
    exact tokenizeF_nil _
  | cons s ss ih =>
    intro f h
    have hw : stmtFlatWf s = true ∧ progFlatWf ss = true := by
      simpa [progFlatWf] using h
    have htext : (programStringAux (s :: ss)).toList =
        (stmtString s).toList ++ ('\n' :: (programStringAux ss).toList) := by
      simp [programStringAux, toList_append]
    have harith : f + (progToks (s :: ss)).length =
        (f + (progToks ss).length) + ((stmtToks s).length + 1) := by
      simp [progToks]
      omega
    rw [htext, harith,
      stmtLex s (programStringAux ss).toList (f + (progToks ss).length) hw.1,
      ih f hw.2]
    simp [progToks]

/-! ## Parsing the token sequence of a printed flat program -/

theorem skipNewlines_cons_neg {t : Token} {ts : List Token} (h : t.type ≠ TokenType.newline) :
    skipNewlines (t :: ts) = t :: ts := by
  have hb : (t.type == TokenType.newline) = false := by simpa using h
  exact dropWhile_cons_neg hb

/-- The first token of a printed value is a value opener, never a
bracket-closer, separator or end marker. -/
theorem curT_vToks (v : VExpr) (ts : List Token) :
    curT (vToks v ++ ts) ≠ TokenType.rbracket ∧ curT (vToks v ++ ts) ≠ TokenType.eof ∧
      curT (vToks v ++ ts) ≠ TokenType.newline := by
  cases v <;> simp [vToks, curT, curTok]

theorem skipNewlines_vToks (v : VExpr) (ts : List Token) :
    skipNewlines (vToks v ++ ts) = vToks v ++ ts := by
  cases v <;> simp [vToks, skipNewlines]

theorem skipNewlines_vToksList (e : VExpr) (es : List VExpr) (ts : List Token) :
    skipNewlines (vToksList (e :: es) ++ ts) = vToksList (e :: es) ++ ts := by
  cases es with
  | nil => simpa [vToksList] using skipNewlines_vToks e ts
  | cons e2 es =>
    have h := skipNewlines_vToks e ((⟨.comma, ","⟩ : Token) :: (vToksList (e2 :: es) ++ ts))
    simpa [vToksList, List.append_assoc] using h

mutual

/-- `parseValue` on the token sequence of a printable value returns
that value and leaves the following tokens untouched, given the value's
fuel requirement on top of any slack. -/
theorem pVal : ∀ (v : VExpr) (rest : List Token) (f : Nat), vexprWf v = true →
    parseValueF (f + vNeedP v) (vToks v ++ rest) = (v, rest)
  | .str s, rest, f, _ => by
    simp [vNeedP, vToks, parseValueF]
  | .num d, rest, f, h => by
    have h2 : numOk d = true := by simpa [vexprWf] using h
    have hd : parseFloatGo (gFormat d) = d := by
      simp only [numOk, Bool.and_eq_true] at h2
      simpa using h2.2
    simp [vNeedP, vToks, parseValueF, hd]
  | .bool b, rest, f, _ => by
    cases b <;> simp [vNeedP, vToks, parseValueF]
  | .ident n, rest, f, _ => by
    simp [vNeedP, vToks, parseValueF]
  | .list es, rest, f, h => by
    have hl : vexprWfList es = true := by simpa [vexprWf] using h
    have htoks : vToks (.list es) ++ rest =
        (⟨.lbracket, "["⟩ : Token) :: (vToksList es ++ (⟨.rbracket, "]"⟩ : Token) :: rest) := by
      simp [vToks]
    have harith : f + vNeedP (.list es) = ((f + vNeedListP es) + 1) + 1 := by
      simp [vNeedP]
      omega
    rw [htoks, harith]
    show parseListF ((f + vNeedListP es) + 1)
        ((⟨.lbracket, "["⟩ : Token) :: (vToksList es ++ (⟨.rbracket, "]"⟩ : Token) :: rest)) = _
    rw [parseListF]
    rw [show ((⟨.lbracket, "["⟩ : Token) ::
        (vToksList es ++ (⟨.rbracket, "]"⟩ : Token) :: rest)).tail =
        vToksList es ++ (⟨.rbracket, "]"⟩ : Token) :: rest from rfl]
    rw [pListLoop es [] rest f hl]
    simp [curT, curTok]

/-- The list-element loop of `parseList` consumes exactly the printed
elements up to the closing bracket, appending them to the accumulator. -/
theorem pListLoop : ∀ (es : List VExpr) (acc : List VExpr) (rest : List Token) (f : Nat),
    vexprWfList es = true →
    parseListLoop (f + vNeedListP es) (vToksList es ++ (⟨.rbracket, "]"⟩ : Token) :: rest) acc =
      (acc ++ es, (⟨.rbracket, "]"⟩ : Token) :: rest)
  | [], acc, rest, f, _ => by
    simp [vNeedListP, vToksList, parseListLoop, curT, curTok]
  | [e], acc, rest, f, h => by
    have hw : vexprWf e = true := by simpa [vexprWfList] using h
    have hc := curT_vToks e ((⟨.rbracket, "]"⟩ : Token) :: rest)
    have hrec := pListLoop [] (acc ++ [e]) rest (f + vNeedP e) rfl
    simp only [vToksList, vNeedListP, List.nil_append, List.append_nil] at hrec
    simp only [vToksList, vNeedListP]
    rw [show f + (vNeedP e + 1 + 1) = ((f + vNeedP e) + 1) + 1 from by omega]
    rw [parseListLoop]
    rw [if_neg (by rintro (hx | hx); exact hc.1 hx; exact hc.2.1 hx)]
    dsimp only
    rw [skipNewlines_vToks]
    rw [show (f + vNeedP e) + 1 = (f + 1) + vNeedP e from by omega,
      pVal e ((⟨.rbracket, "]"⟩ : Token) :: rest) (f + 1) hw]
    simp only [curT, curTok, List.head?_cons, Option.getD_some]
    rw [if_neg (by simp)]
    rw [skipNewlines_cons_neg (by simp)]
    rw [show (f + 1) + vNeedP e = (f + vNeedP e) + 1 from by omega]
    exact hrec
  | e :: e2 :: es, acc, rest, f, h => by
    have hsplit : vexprWf e = true ∧ vexprWfList (e2 :: es) = true := by
      simpa [vexprWfList] using h
    have hc := curT_vToks e ((⟨.comma, ","⟩ : Token) ::
      (vToksList (e2 :: es) ++ (⟨.rbracket, "]"⟩ : Token) :: rest))
    have hrec := pListLoop (e2 :: es) (acc ++ [e]) rest (f + vNeedP e) hsplit.2
    have htoks : vToksList (e :: e2 :: es) ++ (⟨.rbracket, "]"⟩ : Token) :: rest =
        vToks e ++ ((⟨.comma, ","⟩ : Token) ::
          (vToksList (e2 :: es) ++ (⟨.rbracket, "]"⟩ : Token) :: rest)) := by
      simp [vToksList]
    rw [htoks]
    rw [show f + vNeedListP (e :: e2 :: es) =
      ((f + vNeedP e) + vNeedListP (e2 :: es)) + 1 from by simp [vNeedListP]; omega]
    rw [parseListLoop]
    rw [if_neg (by rintro (hx | hx); exact hc.1 hx; exact hc.2.1 hx)]
    dsimp only
    rw [skipNewlines_vToks]
    rw [show (f + vNeedP e) + vNeedListP (e2 :: es) =
      (f + vNeedListP (e2 :: es)) + vNeedP e from by omega,
      pVal e ((⟨.comma, ","⟩ : Token) ::
        (vToksList (e2 :: es) ++ (⟨.rbracket, "]"⟩ : Token) :: rest))
        (f + vNeedListP (e2 :: es)) hsplit.1]
    simp only [curT, curTok, List.head?_cons, Option.getD_some, List.tail_cons, if_pos]
    rw [skipNewlines_vToksList]
    rw [show (f + vNeedListP (e2 :: es)) + vNeedP e =
      (f + vNeedP e) + vNeedListP (e2 :: es) from by omega]
    rw [hrec]
    simp

end

/-- `parseStatement` on the token sequence of a printable flat
statement returns that statement; the hypothesis on `rest` records
that in a printed program a statement is followed by its newline
separator (or nothing), which keeps `parseMCPCall`'s greedy argument
grab from consuming a following token. -/
theorem pStmt : ∀ (s : Stmt) (rest : List Token) (f : Nat), stmtFlatWf s = true →
    rest = [] ∨ curT rest = TokenType.newline →
    parseStatementF (f + stmtNeedP s) (stmtToks s ++ rest) = (some s, rest)
  | .assign n v, rest, f, h, _ => by
    have hv : vexprWf v = true := by
      simp only [stmtFlatWf, Bool.and_eq_true] at h
      exact h.2
    simp only [stmtToks, stmtNeedP]
    show parseStatementF ((f + vNeedP v) + 1)
      ((⟨.identifier, n⟩ : Token) :: (⟨.assign, "="⟩ : Token) :: (vToks v ++ rest)) = _
    rw [parseStatementF]
    simp only [curT, curTok, peekT, List.head?_cons, Option.getD_some, List.tail_cons]
    rw [parseAssignmentF]
    simp only [curT, curTok, curLit, List.head?_cons, Option.getD_some, List.tail_cons,
      if_pos]
    rw [pVal v rest f hv]
  | .ask ins, rest, f, h, _ => by
    simp [stmtToks, stmtNeedP, parseStatementF, curT, curTok, parseAskStatement]
  | .shell cmd, rest, f, h, _ => by
    simp [stmtToks, stmtNeedP, parseStatementF, curT, curTok, parseShellCommand]
  | .mcp sv m a, rest, f, h, hrest => by
    simp only [stmtToks, stmtNeedP]
    by_cases ha : a = ""
    · subst ha
      rw [if_neg (by simp)]
      rw [parseStatementF]
      simp only [curT, curTok, peekT, List.head?_cons, Option.getD_some, List.tail_cons,
        List.nil_append]
      rw [parseMCPCall]
      simp only [curT, curTok, curLit, List.head?_cons, Option.getD_some, List.tail_cons]
      rcases hrest with rfl | hnl
      · rfl
      · cases rest with
        | nil => rfl
        | cons t r =>
          cases t with
          | mk ty lit =>
            have hty : ty = TokenType.newline := by simpa [curT, curTok] using hnl
            subst hty
            rfl
    · rw [if_pos (by simpa using ha)]
      rw [parseStatementF]
      simp only [curT, curTok, peekT, List.head?_cons, Option.getD_some, List.tail_cons,
        List.cons_append, List.nil_append]
      rw [parseMCPCall]
      simp only [curT, curTok, curLit, List.head?_cons, Option.getD_some, List.tail_cons]
  | .incdec n op, rest, f, h, _ => by
    have hop : op = "++" := by
      simp only [stmtFlatWf, Bool.and_eq_true] at h
      simpa using h.2
    subst hop
    simp [stmtToks, stmtNeedP, parseStatementF, curT, curTok, peekT,
      parseIncrementDecrement, curLit]
  | .ifS c b1 b2, rest, f, h, _ => by simp [stmtFlatWf] at h
  | .repeatS c b, rest, f, h, _ => by simp [stmtFlatWf] at h
  | .before b, rest, f, h, _ => by simp [stmtFlatWf] at h
  | .after b, rest, f, h, _ => by simp [stmtFlatWf] at h

/-- The first token of a printed flat statement is a keyword or an
identifier, never the end marker or a newline. -/
theorem curT_stmtToks (s : Stmt) (ts : List Token) (h : stmtFlatWf s = true) :
    curT (stmtToks s ++ ts) ≠ TokenType.eof ∧
      curT (stmtToks s ++ ts) ≠ TokenType.newline := by
  cases s with
  | assign n v => simp [stmtToks, curT, curTok]
  | ask ins => simp [stmtToks, curT, curTok]
  | shell cmd => simp [stmtToks, curT, curTok]
  | mcp sv m a => simp [stmtToks, curT, curTok]
  | incdec n op => simp [stmtToks, curT, curTok]
  | ifS c b1 b2 => simp [stmtFlatWf] at h
  | repeatS c b => simp [stmtFlatWf] at h
  | before b => simp [stmtFlatWf] at h
  | after b => simp [stmtFlatWf] at h

theorem skipNewlines_stmtToks (s : Stmt) (ts : List Token) (h : stmtFlatWf s = true) :
    skipNewlines (stmtToks s ++ ts) = stmtToks s ++ ts := by
  cases s with
  | assign n v => exact skipNewlines_cons_neg (by simp)
  | ask ins => exact skipNewlines_cons_neg (by simp)
  | shell cmd => exact skipNewlines_cons_neg (by simp)
  | mcp sv m a => exact skipNewlines_cons_neg (by simp)
  | incdec n op => exact skipNewlines_cons_neg (by simp)
  | ifS c b1 b2 => simp [stmtFlatWf] at h
  | repeatS c b => simp [stmtFlatWf] at h
  | before b => simp [stmtFlatWf] at h
  | after b => simp [stmtFlatWf] at h

theorem progToks_cons (s : Stmt) (ss : List Stmt) :
    progToks (s :: ss) = stmtToks s ++ (⟨.newline, "\n"⟩ : Token) :: progToks ss := by
  simp [progToks]

theorem skipNewlines_progToks (ss : List Stmt) (h : progFlatWf ss = true) :
    skipNewlines (progToks ss) = progToks ss := by
  cases ss with
  | nil => rfl
  | cons s ss =>
    have hw : stmtFlatWf s = true := by
      simp only [progFlatWf, List.all_cons, Bool.and_eq_true] at h
      exact h.1
    rw [progToks_cons]
    exact skipNewlines_stmtToks s _ hw

/-- The `Parse` loop on the token sequence of a printable flat program
appends exactly its statements to the accumulator. -/
theorem pProg : ∀ (ss : List Stmt) (acc : List Stmt) (f : Nat), progFlatWf ss = true →
    progIterF (f + progNeedP ss) (progToks ss) acc = acc ++ ss
  | [], acc, f, _ => by
    simp [progToks, progNeedP, progIterF, curT, curTok, eofTok]
  | s :: ss, acc, f, h => by
    have hw : stmtFlatWf s = true ∧ progFlatWf ss = true := by
      simpa [progFlatWf] using h
    have hc := curT_stmtToks s ((⟨.newline, "\n"⟩ : Token) :: progToks ss) hw.1
    rw [progToks_cons]
    rw [show f + progNeedP (s :: ss) =
      ((f + progNeedP ss) + stmtNeedP s) + 1 from by simp [progNeedP]; omega]
    rw [progIterF]
    rw [if_neg hc.1]
    dsimp only
    rw [skipNewlines_stmtToks s _ hw.1]
    rw [if_neg hc.1]
    rw [pStmt s ((⟨.newline, "\n"⟩ : Token) :: progToks ss) (f + progNeedP ss) hw.1
      (Or.inr rfl)]
    dsimp only
    rw [show skipNewlines ((⟨.newline, "\n"⟩ : Token) :: progToks ss) =
      skipNewlines (progToks ss) from rfl]
    rw [skipNewlines_progToks ss hw.2]
    rw [show (f + progNeedP ss) + stmtNeedP s =
      (f + stmtNeedP s) + progNeedP ss from by omega]
    rw [pProg ss (acc ++ [s]) (f + stmtNeedP s) hw.2]
    simp

/-! ## Environment-preservation lemmas

No statement other than `IncrementDecrement` writes to the variable
map during hook or main-pass execution. -/

theorem executeShell_fst (cfg : Config) (cmd : String) (env : Env) :
    (executeShell cfg cmd env).1 = env := by
  unfold executeShell
  split
  · rfl
  · cases cfg.world.shellErr cmd <;> rfl

theorem executeAsk_fst (cfg : Config) (ins : String) (env : Env) :
    (executeAsk cfg ins env).1 = env := by
  unfold executeAsk callClaudeCode
  split
  · rfl
  · cases h : cfg.world.claudeErr (buildPrompt ins (buildContext env)) <;> simp [h]

theorem executeMCP_fst (cfg : Config) (s m a : String) (env : Env) :
    (executeMCP cfg s m a env).1 = env := by
  unfold executeMCP
  split
  · rfl
  split
  · split
    · cases cfg.world.shellErr a <;> rfl
    · rfl
  split
  · split
    · split
      · split
        · dsimp only
          split <;> rfl
        · rfl
      · rfl
    split
    · cases cfg.world.fsMkdirErr a <;> rfl
    split
    · cases cfg.world.fsReadErr a <;> rfl
    · rfl
  · rfl

theorem executeHook_fst (cfg : Config) (h : Stmt) (env : Env) :
    (executeHook cfg h env).1 = env := by
  cases h <;>
    simp [executeHook, executeShell_fst, executeMCP_fst]

theorem executeHooks_fst (cfg : Config) :
    ∀ (hs : List Stmt) (env : Env), (executeHooks cfg hs env).1 = env := by
  intro hs
  induction hs with
  | nil => intro env; rfl
  | cons h rest ih =>
    intro env
    unfold executeHooks
    cases he : (executeHook cfg h env).2.2 with
    | some e => simpa [he] using executeHook_fst cfg h env
    | none =>
      have h1 := executeHook_fst cfg h env
      simp only [he]
      simpa [h1] using ih (executeHook cfg h env).1

theorem executeRepeatLoop_fst (runBody : Env → ExecResult)
    (hrb : ∀ e, (runBody e).1 = e) :
    ∀ (k : Nat) (env : Env), (executeRepeatLoop runBody k env).1 = env := by
  intro k
  induction k with
  | zero => intro env; rfl
  | succ k ih =>
    intro env
    unfold executeRepeatLoop
    cases he : (runBody env).2.2 with
    | some e => simpa [he] using hrb env
    | none =>
      have h1 := hrb env
      simp only [he]
      simpa [h1] using ih (runBody env).1

mutual

theorem executeStatement_noIncdec_fst (cfg : Config) :
    ∀ (s : Stmt) (env : Env), Stmt.noIncdec s = true →
      (executeStatement cfg s env).1 = env
  | .assign n v, env, _ => rfl
  | .ask ins, env, _ => executeAsk_fst cfg ins env
  | .ifS c cs alt, env, h => by
    simp only [Stmt.noIncdec, Bool.and_eq_true] at h
    simp only [executeStatement]
    split
    · exact executeStatements_noIncdec_fst cfg cs env h.1
    · exact executeStatements_noIncdec_fst cfg alt env h.2
  | .repeatS c body, env, h => by
    simp only [Stmt.noIncdec] at h
    exact executeRepeatLoop_fst _
      (fun e => executeStatements_noIncdec_fst cfg body e h) c.toNat env
  | .shell cmd, env, _ => executeShell_fst cfg cmd env
  | .mcp s m a, env, _ => executeMCP_fst cfg s m a env
  | .incdec n op, env, h => by simp [Stmt.noIncdec] at h
  | .before hs, env, _ => rfl
  | .after hs, env, _ => rfl

theorem executeStatements_noIncdec_fst (cfg : Config) :
    ∀ (ss : List Stmt) (env : Env), Stmt.noIncdecList ss = true →
      (executeStatements cfg ss env).1 = env
  | [], env, _ => rfl
  | s :: rest, env, h => by
    simp only [Stmt.noIncdecList, Bool.and_eq_true] at h
    unfold executeStatements
    cases he : (executeStatement cfg s env).2.2 with
    | some e => simpa [he] using executeStatement_noIncdec_fst cfg s env h.1
    | none =>
      have h1 := executeStatement_noIncdec_fst cfg s env h.1
      simp only [he]
      simpa [h1] using executeStatements_noIncdec_fst cfg rest _ h.2

end

/-! ## Claim theorems -/

/-- C7: for every Identifier value, `evalValue` returns the
environment's binding for its name when one exists and otherwise the
identifier's own name as a string.  `evalValue` is a total function
into `Value` (no error channel), so evaluating an unbound identifier
cannot raise an error. -/
theorem evalValue_ident_fallback (env : Env) (n : String) :
    evalValue (.ident n) env = (lookupAssoc env n).getD (.vstr n) := by
  simp only [evalValue]
  cases lookupAssoc env n <;> rfl

/-- C2: `evalCondition` compares `==`/`!=` by the default string
representations of the two evaluated sides and the four ordering
operators by float coercion, where a string that fails to parse as a
number coerces to 0 and booleans coerce to 1/0; in particular
`"5" == 5` is true and `"abc" > 1` is false. -/
theorem evalCondition_coercion_policy :
    (∀ (env : Env) (l r : VExpr),
      evalCondition ⟨l, "==", r⟩ env
        = (sprintV (evalValue l env) == sprintV (evalValue r env)) ∧
      evalCondition ⟨l, "!=", r⟩ env
        = (sprintV (evalValue l env) != sprintV (evalValue r env)) ∧
      evalCondition ⟨l, "<", r⟩ env
        = Dec.blt (toFloat (evalValue l env)) (toFloat (evalValue r env)) ∧
      evalCondition ⟨l, ">", r⟩ env
        = Dec.blt (toFloat (evalValue r env)) (toFloat (evalValue l env)) ∧
      evalCondition ⟨l, "<=", r⟩ env
        = Dec.ble (toFloat (evalValue l env)) (toFloat (evalValue r env)) ∧
      evalCondition ⟨l, ">=", r⟩ env
        = Dec.ble (toFloat (evalValue r env)) (toFloat (evalValue l env))) ∧
    (∀ s : String, parseFloatChars s.toList = none → toFloat (.vstr s) = ⟨0, 0⟩) ∧
    (toFloat (.vbool true) = ⟨1, 0⟩ ∧ toFloat (.vbool false) = ⟨0, 0⟩) ∧
    evalCondition ⟨.str "5", "==", .num ⟨5, 0⟩⟩ [] = true ∧
    evalCondition ⟨.str "abc", ">", .num ⟨1, 0⟩⟩ [] = false := by
  refine ⟨fun env l r => ⟨rfl, rfl, rfl, rfl, rfl, rfl⟩, ?_, ⟨rfl, rfl⟩, by decide, by decide⟩
  intro s h
  have h2 : parseFloatChars s.data = none := h
  simp [toFloat, parseFloatGo, String.toList, h2]

/-- Witness for C2 at concrete inputs: the non-numeric string
hypothesis is discharged for `"abc"`. -/
theorem evalCondition_coercion_policy_witness :
    toFloat (.vstr "abc") = ⟨0, 0⟩ ∧
    evalCondition ⟨.str "5", "==", .num ⟨5, 0⟩⟩ [] = true ∧
    evalCondition ⟨.str "abc", ">", .num ⟨1, 0⟩⟩ [] = false :=
  ⟨evalCondition_coercion_policy.2.1 "abc" (by decide),
   evalCondition_coercion_policy.2.2.2.1,
   evalCondition_coercion_policy.2.2.2.2⟩

/-- C6: `executeIncrementDecrement` replaces a bound numeric variable
by its value plus one (for `++`) or minus one, and is a complete no-op
— environment unchanged, no new binding, no event, no error — when the
variable is unbound or holds a non-numeric value.  Concretely,
`count++` with `count = 5` yields `count = 6`, and `count++` on an
empty environment leaves it empty. -/
theorem executeIncrementDecrement_numeric_only (cfg : Config) (env : Env) (n op : String) :
    (∀ d : Dec, lookupAssoc env n = some (.vnum d) →
      executeStatement cfg (.incdec n op) env =
        (setAssoc env n (.vnum (if op = "++" then d.add1 else d.sub1)), [], none)) ∧
    ((∀ d : Dec, lookupAssoc env n ≠ some (.vnum d)) →
      executeStatement cfg (.incdec n op) env = (env, [], none)) ∧
    executeIncrementDecrement "count" "++" [("count", .vnum ⟨5, 0⟩)]
      = [("count", .vnum ⟨6, 0⟩)] ∧
    executeIncrementDecrement "count" "++" [] = [] := by
  refine ⟨?_, ?_, by decide, by decide⟩
  · intro d hd
    by_cases hop : op = "++" <;>
      simp [executeStatement, executeIncrementDecrement, hd, hop]
  · intro hd
    have hni : executeIncrementDecrement n op env = env := by
      unfold executeIncrementDecrement
      cases hl : lookupAssoc env n with
      | none => rfl
      | some v =>
        cases v with
        | vnum d => exact absurd hl (hd d)
        | vstr s => rfl
        | vbool b => rfl
        | vlist xs => rfl
    simp [executeStatement, hni]

/-- Witness for C6: both hypotheses discharged at concrete
environments. -/
theorem executeIncrementDecrement_numeric_only_witness :
    executeStatement ⟨false, wAllOk⟩ (.incdec "count" "++") [("count", .vnum ⟨5, 0⟩)] =
      ([("count", .vnum ⟨6, 0⟩)], [], none) ∧
    executeStatement ⟨false, wAllOk⟩ (.incdec "count" "++") [] = ([], [], none) := by
  constructor
  · have h := (executeIncrementDecrement_numeric_only ⟨false, wAllOk⟩
      [("count", .vnum ⟨5, 0⟩)] "count" "++").1 ⟨5, 0⟩ (by decide)
    simpa using h
  · exact (executeIncrementDecrement_numeric_only ⟨false, wAllOk⟩
      [] "count" "++").2.1 (fun d => by simp [lookupAssoc])

/-- C5: `repeat` with count `n ≥ 0` runs its body exactly `n` times, in
order, threading the environment; no loop variable is introduced (the
first iteration receives the incoming environment unchanged, and the
loop itself binds nothing).  `repeat 0` never runs the body; a
`repeat n` over a single `ask` emits exactly `n` assistant calls. -/
theorem executeRepeat_runs_body_count_times (cfg : Config) :
    (∀ (c : Int) (body : List Stmt) (env : Env), 0 ≤ c →
      executeStatement cfg (.repeatS c body) env =
        executeRepeatLoop (fun e => executeStatements cfg body e) c.toNat env) ∧
    (∀ (runBody : Env → ExecResult) (env : Env),
      executeRepeatLoop runBody 0 env = (env, [], none)) ∧
    (∀ (runBody : Env → ExecResult) (k : Nat) (env e : Env) (tr : List Event),
      runBody env = (e, tr, none) →
      executeRepeatLoop runBody (k + 1) env =
        ((executeRepeatLoop runBody k e).1,
         tr ++ (executeRepeatLoop runBody k e).2.1,
         (executeRepeatLoop runBody k e).2.2)) ∧
    (∀ (runBody : Env → ExecResult) (k : Nat) (env e : Env) (tr : List Event) (msg : String),
      runBody env = (e, tr, some msg) →
      executeRepeatLoop runBody (k + 1) env = (e, tr, some msg)) ∧
    (∀ (ins : String) (n : Int) (env : Env), 0 ≤ n → cfg.dryRun = false →
      executeStatement cfg (.repeatS n [.ask ins]) env =
        (env, List.replicate n.toNat (.askClaude (buildPrompt ins env)), none)) := by
  refine ⟨fun c body env _ => rfl, fun runBody env => rfl, ?_, ?_, ?_⟩
  · intro runBody k env e tr h
    simp [executeRepeatLoop, h]
  · intro runBody k env e tr msg h
    simp [executeRepeatLoop, h]
  · intro ins n env hn hdry
    show executeRepeatLoop _ n.toNat env = _
    generalize n.toNat = k
    induction k generalizing env with
    | zero => rfl
    | succ k ih =>
      have hb : executeStatements cfg [.ask ins] env =
          (env, [.askClaude (buildPrompt ins env)], none) := by
        simp only [executeStatements, executeStatement, executeAsk, buildContext, hdry,
          Bool.false_eq_true, if_false, callClaudeCode]
        cases h : cfg.world.claudeErr (buildPrompt ins env) <;> simp [h]
      simp [executeRepeatLoop, hb, ih, List.replicate_succ]

/-- Witness for C5: `repeat 0` and `repeat 3` over an `ask`, at a
concrete configuration. -/
theorem executeRepeat_runs_body_count_times_witness :
    executeStatement ⟨false, wAllOk⟩ (.repeatS 0 [.ask "x"]) [] = ([], [], none) ∧
    executeStatement ⟨false, wAllOk⟩ (.repeatS 3 [.ask "x"]) [] =
      ([], List.replicate 3 (.askClaude (buildPrompt "x" [])), none) := by
  constructor
  · have h := (executeRepeat_runs_body_count_times ⟨false, wAllOk⟩).2.2.2.2
      "x" 0 [] (by decide) rfl
    simpa using h
  · have h := (executeRepeat_runs_body_count_times ⟨false, wAllOk⟩).2.2.2.2
      "x" 3 [] (by decide) rfl
    simpa using h

/-- C10: an Assignment that is executed anywhere outside the collection
pass — by the main-pass dispatcher, inside an if branch, inside a
repeat body, or by the hook runner — is a strict no-op: deleting it
from the surrounding statement list does not change the result, and it
never mutates any variable. -/
theorem nested_assignment_no_effect (cfg : Config) :
    (∀ (n : String) (v : VExpr) (env : Env),
      executeStatement cfg (.assign n v) env = (env, [], none)) ∧
    (∀ (n : String) (v : VExpr) (env : Env),
      executeHook cfg (.assign n v) env = (env, [], none)) ∧
    (∀ (xs : List Stmt) (n : String) (v : VExpr) (ys : List Stmt) (env : Env),
      executeStatements cfg (xs ++ .assign n v :: ys) env =
        executeStatements cfg (xs ++ ys) env) ∧
    (∀ (c : CondData) (xs : List Stmt) (n : String) (v : VExpr) (ys alt : List Stmt) (env : Env),
      executeStatement cfg (.ifS c (xs ++ .assign n v :: ys) alt) env =
        executeStatement cfg (.ifS c (xs ++ ys) alt) env) ∧
    (∀ (c : CondData) (conseq xs : List Stmt) (n : String) (v : VExpr) (ys : List Stmt) (env : Env),
      executeStatement cfg (.ifS c conseq (xs ++ .assign n v :: ys)) env =
        executeStatement cfg (.ifS c conseq (xs ++ ys)) env) ∧
    (∀ (k : Int) (xs : List Stmt) (n : String) (v : VExpr) (ys : List Stmt) (env : Env),
      executeStatement cfg (.repeatS k (xs ++ .assign n v :: ys)) env =
        executeStatement cfg (.repeatS k (xs ++ ys)) env) ∧
    (∀ (xs : List Stmt) (n : String) (v : VExpr) (ys : List Stmt) (env : Env),
      executeHooks cfg (xs ++ .assign n v :: ys) env =
        executeHooks cfg (xs ++ ys) env) := by
  have hdel : ∀ (xs : List Stmt) (n : String) (v : VExpr) (ys : List Stmt) (env : Env),
      executeStatements cfg (xs ++ .assign n v :: ys) env =
        executeStatements cfg (xs ++ ys) env := by
    intro xs n v ys
    induction xs with
    | nil => intro env; rfl
    | cons s rest ih =>
      intro env
      show executeStatements cfg (s :: (rest ++ .assign n v :: ys)) env = _
      unfold executeStatements
      cases he : (executeStatement cfg s env).2.2 <;> simp [he, ih]
  refine ⟨fun n v env => rfl, fun n v env => rfl, hdel, ?_, ?_, ?_, ?_⟩
  · intro c xs n v ys alt env
    simp only [executeStatement]
    split
    · exact hdel xs n v ys env
    · rfl
  · intro c conseq xs n v ys env
    simp only [executeStatement]
    split
    · rfl
    · exact hdel xs n v ys env
  · intro k xs n v ys env
    simp only [executeStatement]
    congr 1
    funext e
    exact hdel xs n v ys e
  · intro xs n v ys
    induction xs with
    | nil => intro env; rfl
    | cons s rest ih =>
      intro env
      show executeHooks cfg (s :: (rest ++ .assign n v :: ys)) env = _
      unfold executeHooks
      cases he : (executeHook cfg s env).2.2 <;> simp [he, ih]

/-- C1: the collection pass stores every top-level assignment and
registers every hook before anything runs; hooks never change the
environment, and the main pass leaves the environment untouched for
programs without increment/decrement statements, so an `ask` that
textually precedes a top-level assignment builds its prompt from the
environment that already contains that assignment's value. -/
theorem collection_pass_fixes_bindings_before_effects (cfg : Config) :
    (∀ (hs : List Stmt) (env : Env), (executeHooks cfg hs env).1 = env) ∧
    (∀ (ss : List Stmt) (env : Env), Stmt.noIncdecList ss = true →
      (executeStatements cfg ss env).1 = env) ∧
    (∀ (w : World) (ins n : String) (vx : VExpr),
      Execute ⟨false, w⟩ ⟨[.ask ins, .assign n vx]⟩ =
        ([(n, evalValue vx [])],
         [.askClaude (buildPrompt ins [(n, evalValue vx [])])], none)) := by
  refine ⟨executeHooks_fst cfg, executeStatements_noIncdec_fst cfg, ?_⟩
  intro w ins n vx
  have hc : collectPass [.ask ins, .assign n vx] = ([(n, evalValue vx [])], [], []) := by
    simp [collectPass, setAssoc]
  simp only [Execute, hc, executeHooks]
  simp only [executeStatements, executeStatement, executeAsk, buildContext, callClaudeCode]
  cases h : w.claudeErr (buildPrompt ins [(n, evalValue vx [])]) <;> simp [h]

/-- Witness for C1: the incdec-free-preservation hypothesis discharged
at a concrete statement list, and the ask-before-assignment program at
concrete strings. -/
theorem collection_pass_fixes_bindings_before_effects_witness :
    (executeStatements ⟨false, wAllOk⟩ [.ask "go"] [("project", .vstr "X")]).1 =
      [("project", .vstr "X")] ∧
    Execute ⟨false, wAllOk⟩ ⟨[.ask "go", .assign "project" (.str "X")]⟩ =
      ([("project", .vstr "X")],
       [.askClaude (buildPrompt "go" [("project", .vstr "X")])], none) :=
  ⟨(collection_pass_fixes_bindings_before_effects ⟨false, wAllOk⟩).2.1
      [.ask "go"] [("project", .vstr "X")] (by decide),
   (collection_pass_fixes_bindings_before_effects ⟨false, wAllOk⟩).2.2
      wAllOk "go" "project" (.str "X")⟩

/-- C3: a failure of any before-hook statement makes `Execute` return
immediately with the error wrapped `"before hook failed: "`, the trace
ending with the hook events (no main-pass statement has executed);
while `callClaudeCode` never returns an error, so an assistant
invocation failure during an `ask` is non-fatal and subsequent
statements still run. -/
theorem before_hook_fatal_claude_nonfatal (cfg : Config) :
    (∀ (p : Program) (env : Env) (tr : List Event) (msg : String),
      executeHooks cfg (collectPass p.statements).2.1 (collectPass p.statements).1 =
        (env, tr, some msg) →
      Execute cfg p = (env, tr, some ("before hook failed: " ++ msg))) ∧
    (∀ (prompt : String) (env : Env), (callClaudeCode cfg prompt env).2.2 = none) ∧
    (∀ (ins : String) (env : Env), cfg.dryRun = false →
      (executeAsk cfg ins env).2.2 = none) ∧
    (∀ (w : World) (ins cmd : String), w.shellErr cmd = none →
      Execute ⟨false, w⟩ ⟨[.ask ins, .shell cmd]⟩ =
        ([], [.askClaude (buildPrompt ins []), .shellRun cmd], none)) := by
  refine ⟨?_, ?_, ?_, ?_⟩
  · intro p env tr msg h
    simp only [Execute, h]
  · intro prompt env
    unfold callClaudeCode
    cases cfg.world.claudeErr prompt <;> rfl
  · intro ins env hdry
    unfold executeAsk
    simp only [hdry, Bool.false_eq_true, if_false]
    unfold callClaudeCode
    cases cfg.world.claudeErr (buildPrompt ins (buildContext env)) <;> rfl
  · intro w ins cmd hcmd
    have hc : collectPass [Stmt.ask ins, Stmt.shell cmd] = ([], [], []) := by
      simp [collectPass]
    simp only [Execute, hc, executeHooks]
    simp only [executeStatements, executeStatement, executeAsk, buildContext,
      callClaudeCode, executeShell, hcmd]
    cases h : w.claudeErr (buildPrompt ins []) <;> simp [h, executeShell, hcmd]

/-- Witness for C3: a concrete failing before hook aborts with the
wrapped error and no main-pass event; a concrete world with a failing
assistant still executes the following shell statement. -/
theorem before_hook_fatal_claude_nonfatal_witness :
    Execute ⟨false, wShellBad⟩ ⟨[.before [.shell "bad"], .ask "x"]⟩ =
      ([], [.shellRun "bad"],
       some "before hook failed: shell command failed: exit status 1") ∧
    Execute ⟨false, wClaudeDown⟩ ⟨[.ask "x", .shell "ok"]⟩ =
      ([], [.askClaude (buildPrompt "x" []), .shellRun "ok"], none) :=
  ⟨(before_hook_fatal_claude_nonfatal ⟨false, wShellBad⟩).1
      ⟨[.before [.shell "bad"], .ask "x"]⟩ [] [.shellRun "bad"]
      "shell command failed: exit status 1" (by decide),
   (before_hook_fatal_claude_nonfatal ⟨false, wClaudeDown⟩).2.2.2
      wClaudeDown "x" "ok" rfl⟩

/-- C9 counterexample: lexing does not continue past a bare `!`.  On
the input `x!y` the token stream is just the identifier `x`: the `!`
yields the zero-value token (type `TOKEN_EOF`) without advancing, so
the `y` is never lexed, contradicting the claim that the character is
skipped and lexing continues. -/
theorem bare_bang_ends_stream_counterexample :
    nextToken ("!y".toList) = (eofTok, "!y".toList) ∧
    tokenizeF 10 ("x!y".toList) = [⟨.identifier, "x"⟩] := by
  constructor <;> decide

/-- C9 amended: a bare `!` not followed by `=` produces the zero-value
token — type `TOKEN_EOF`, empty literal — and does not consume the
character, so tokenization ends at the `!` (the rest of the input is
never lexed) instead of skipping it. -/
theorem bare_bang_zero_token_amended (r : List Char) (h : r.head? ≠ some '=') :
    nextToken ('!' :: r) = (eofTok, '!' :: r) ∧
    ∀ f : Nat, tokenizeF f ('!' :: r) = [] := by
  have core : nextToken ('!' :: r) = (eofTok, '!' :: r) := by
    cases r with
    | nil => rfl
    | cons c r2 =>
      show (match c :: r2 with
            | '=' :: r3 => ((⟨.neq, "!="⟩ : Token), r3)
            | _ => (eofTok, '!' :: c :: r2)) = (eofTok, '!' :: c :: r2)
      split
      · rename_i heq
        rw [List.cons.injEq] at heq
        exact absurd (by simp [heq.1]) h
      · rfl
  refine ⟨core, ?_⟩
  intro f
  cases f with
  | zero => rfl
  | succ f => simp [tokenizeF, core, eofTok]

/-- Witness for C9's amended theorem at a concrete remainder. -/
theorem bare_bang_zero_token_amended_witness :
    nextToken ('!' :: 'y' :: []) = (eofTok, '!' :: 'y' :: []) ∧
    tokenizeF 10 ('!' :: 'y' :: []) = [] :=
  ⟨(bare_bang_zero_token_amended ['y'] (by decide)).1,
   (bare_bang_zero_token_amended ['y'] (by decide)).2 10⟩

/-- C8 counterexample: the argument `{"path":"a.txt"}` is well-formed
JSON with the required key `content` missing, yet a file write does
occur — with empty content — contradicting the claim that a missing
required key produces no write. -/
theorem fswrite_missing_content_counterexample :
    executeMCP ⟨false, wAllOk⟩ "fs" "write" "\x7b\"path\":\"a.txt\"\x7d" [] =
      ([], [.fsWrite "a.txt" "" 0o644], none) := by
  decide

/-- C8 amended: for `fs.write`, only `path` is required.  Well-formed
JSON with `path` and `content` writes exactly that content with the
fixed permission bits 0644 and succeeds (when the OS write succeeds);
malformed JSON, or JSON without `path`, silently performs no write and
raises no error; JSON with `path` but without `content` writes the
file with empty content. -/
theorem fswrite_amended (cfg : Config) (hdry : cfg.dryRun = false) :
    (∀ (arg : String) (m : List (String × String)) (path content : String) (env : Env),
      parseJsonObj arg = some m → lookupAssoc m "path" = some path →
      lookupAssoc m "content" = some content → cfg.world.fsWriteErr path content = none →
      executeMCP cfg "fs" "write" arg env = (env, [.fsWrite path content 0o644], none)) ∧
    (∀ (arg : String) (env : Env), parseJsonObj arg = none →
      executeMCP cfg "fs" "write" arg env = (env, [], none)) ∧
    (∀ (arg : String) (m : List (String × String)) (env : Env),
      parseJsonObj arg = some m → lookupAssoc m "path" = none →
      executeMCP cfg "fs" "write" arg env = (env, [], none)) ∧
    (∀ (arg : String) (m : List (String × String)) (path : String) (env : Env),
      parseJsonObj arg = some m → lookupAssoc m "path" = some path →
      lookupAssoc m "content" = none → cfg.world.fsWriteErr path "" = none →
      executeMCP cfg "fs" "write" arg env = (env, [.fsWrite path "" 0o644], none)) := by
  refine ⟨?_, ?_, ?_, ?_⟩
  · intro arg m path content env hj hp hc hw
    simp [executeMCP, hdry, hj, hp, hc, hw]
  · intro arg env hj
    simp [executeMCP, hdry, hj]
  · intro arg m env hj hp
    simp [executeMCP, hdry, hj, hp]
  · intro arg m path env hj hp hc hw
    simp [executeMCP, hdry, hj, hp, hc, hw]

/-- Witness for C8's amended theorem: all four cases at concrete JSON
arguments. -/
theorem fswrite_amended_witness :
    executeMCP ⟨false, wAllOk⟩ "fs" "write"
      "\x7b\"path\":\"a.txt\",\"content\":\"hi\"\x7d" [] =
      ([], [.fsWrite "a.txt" "hi" 0o644], none) ∧
    executeMCP ⟨false, wAllOk⟩ "fs" "write" "not json" [] = ([], [], none) ∧
    executeMCP ⟨false, wAllOk⟩ "fs" "write" "\x7b\"k\":\"v\"\x7d" [] = ([], [], none) ∧
    executeMCP ⟨false, wAllOk⟩ "fs" "write" "\x7b\"path\":\"b.txt\"\x7d" [] =
      ([], [.fsWrite "b.txt" "" 0o644], none) :=
  ⟨(fswrite_amended ⟨false, wAllOk⟩ rfl).1
      "\x7b\"path\":\"a.txt\",\"content\":\"hi\"\x7d"
      [("path", "a.txt"), ("content", "hi")] "a.txt" "hi" []
      (by decide) (by decide) (by decide) rfl,
   (fswrite_amended ⟨false, wAllOk⟩ rfl).2.1 "not json" [] (by decide),
   (fswrite_amended ⟨false, wAllOk⟩ rfl).2.2.1 "\x7b\"k\":\"v\"\x7d"
      [("k", "v")] [] (by decide) (by decide),
   (fswrite_amended ⟨false, wAllOk⟩ rfl).2.2.2 "\x7b\"path\":\"b.txt\"\x7d"
      [("path", "b.txt")] "b.txt" [] (by decide) (by decide) (by decide) rfl⟩

/-- C4 counterexample: the parse→print→parse round trip is not the
identity on all scripts.  A `repeat` block prints its body as the
literal `...`, so re-parsing the printed form loses the body: parsing
`repeat 2 \x7b ask "x" \x7d`, printing, and re-parsing yields a repeat
with an empty body, not the original AST. -/
theorem roundtrip_blocks_counterexample :
    parseProgramF 99 (programString (parseProgramF 99 "repeat 2 \x7b\nask \"x\"\n\x7d")) ≠
      parseProgramF 99 "repeat 2 \x7b\nask \"x\"\n\x7d" := by
  decide

/-- C4 (amended): the parse→print→parse round trip holds only for flat
programs — sequences of assignments, asks, shells, MCP calls and `++`
increments whose names lex as single non-keyword identifiers, whose
strings avoid the quote and NUL characters the lexer cannot carry, and
whose numbers re-lex and re-parse to themselves (the "modulo number
formatting" caveat).  Block statements (`if`, `repeat`, `before`,
`after`) print their bodies as the literal `...` and so do not round
trip, and `x--` prints as `x--`, which re-lexes as one identifier.
For a flat program, printing and parsing with enough fuel for both
phases reproduces the AST exactly. -/
theorem roundtrip_flat_amended (ss : List Stmt) (h : progFlatWf ss = true)
    (fuel : Nat) (h1 : progNeedP ss ≤ fuel) (h2 : (progToks ss).length ≤ fuel) :
    parseProgramF fuel (programString ⟨ss⟩) = ⟨ss⟩ := by
  have htok : tokenizeF fuel (programString ⟨ss⟩).toList = progToks ss := by
    have hl := progLex ss (fuel - (progToks ss).length) h
    rw [show fuel - (progToks ss).length + (progToks ss).length = fuel from by omega] at hl
    exact hl
  have hp : progIterF fuel (progToks ss) [] = ss := by
    have hq := pProg ss [] (fuel - progNeedP ss) h
    rw [show fuel - progNeedP ss + progNeedP ss = fuel from by omega] at hq
    simpa using hq
  show parseTokensF fuel (tokenizeF fuel (programString ⟨ss⟩).toList) = ⟨ss⟩
  rw [htok]
  show (⟨progIterF fuel (progToks ss) []⟩ : Program) = ⟨ss⟩
  rw [hp]

/-- Witness for C4's amended theorem: a flat program with every
printable statement kind and value shape round trips exactly. -/
theorem roundtrip_flat_amended_witness :
    progFlatWf demoProg = true ∧ progNeedP demoProg ≤ 64 ∧
      (progToks demoProg).length ≤ 64 ∧
      parseProgramF 64 (programString ⟨demoProg⟩) = ⟨demoProg⟩ :=
  ⟨by decide, by decide, by decide,
    roundtrip_flat_amended demoProg (by decide) 64 (by decide) (by decide)⟩

end Vibe
